import Mathlib

/-!
# Verification of the deduplication engine (`cs336_data/deduplication.py`)

A shallow embedding of the exact-line and MinHash/LSH fuzzy deduplication
pipelines, together with proofs of the specification claims about them.

Modelling conventions:
* Python `dict`s are modelled as association lists (which preserve insertion
  order, like Python dicts) or, where only lookup matters, as the function
  built by successive assignment (`dictOf`).
* Python `set` objects are modelled as `Finset`s; where the code *iterates*
  a set (whose order Python leaves unspecified), the iteration is a parameter
  `enum`/`eset : Finset _ → List _` that is only assumed to enumerate the set.
* The MurmurHash function `mmh3.hash` and the text normalizer
  `normalize_text` (Unicode NFD + regexes) are opaque parameters: the claims
  under verification quantify over them rather than over their bit-level
  definitions.
* `hashlib.md5` digests and Python's `hash()` of band tuples are modelled as
  injective keys (the digest itself for lines, the `(band_idx, band)` pair
  for LSH buckets).
* Machine integers are `Int`; `float("inf")` used to initialise a MinHash
  signature is `(⊤ : WithTop Int)`; Python float division of nonnegative
  integers is modelled exactly, in `ℚ`.
* File paths are abstract document identifiers `α` with a `name : α → String`
  projection standing for `Path(p).name`; writing the output files is the
  list of `(name, contents)` writes, and the resulting directory state is the
  last-write-wins map `outputFS`.
-/

section Dedup

variable {α : Type*} [DecidableEq α] {β : Type*} [DecidableEq β] {κ : Type*} [DecidableEq κ]

/-- `count_line_frequency`: first pass of exact-line deduplication.  Folds over
all files and all lines, incrementing a counter keyed by the line's hash,
exactly like `Counter` in the source; the resulting dict is the function from
hash to frequency (0 for absent keys). -/
def count_line_frequency (hash_line : String → String) (input_files : List (List String)) :
    String → ℕ :=
  input_files.foldl
    (fun line_counter file =>
      file.foldl
        (fun c line => fun h => if h = hash_line line then c h + 1 else c h)
        line_counter)
    (fun _ => 0)

/-- `exact_line_deduplication` (content part): keeps, in each file and in the
original order, exactly those lines whose hash has corpus-wide frequency 1.
The write-to-disk part of the source function is modelled separately by
`exact_line_dedup_writes`. -/
def exact_line_deduplication (hash_line : String → String) (input_files : List (List String)) :
    List (List String) :=
  let line_frequencies := count_line_frequency hash_line input_files
  input_files.map (fun file =>
    file.filter (fun line => line_frequencies (hash_line line) == 1))

/-- `Path(p).name`: the base filename of a path, modelled as the last
component of the component list. -/
def baseName (p : List String) : String := p.getLastD ""

/-- The list of `(output filename, contents)` writes performed by the
exact-line rewriter: one write per input file, named by the input path's base
filename (`output_dir / input_path.name` in the source). -/
def exact_line_dedup_writes (hash_line : String → String) (name : α → String)
    (input_files : List (α × List String)) : List (String × List String) :=
  let line_frequencies := count_line_frequency hash_line (input_files.map Prod.snd)
  input_files.map (fun pf =>
    (name pf.1, pf.2.filter (fun line => line_frequencies (hash_line line) == 1)))

/-- The final state of the output directory after a list of file writes:
a later write to the same filename overwrites an earlier one. -/
def outputFS (writes : List (String × β)) : String → Option β :=
  writes.foldl (fun fs w => fun nm => if nm = w.1 then some w.2 else fs nm) (fun _ => none)

/-- Helper for `pySplit`: walk the characters, accumulating the current word
(reversed) and emitting it at each whitespace run or at the end. -/
def pySplitAux : List Char → List Char → List String
  | [], acc => if acc.isEmpty then [] else [String.mk acc.reverse]
  | c :: cs, acc =>
    if c.isWhitespace then
      if acc.isEmpty then pySplitAux cs [] else String.mk acc.reverse :: pySplitAux cs []
    else pySplitAux cs (c :: acc)

/-- Python's `text.split()`: split on runs of whitespace, producing no empty
tokens. -/
def pySplit (text : String) : List String := pySplitAux text.toList []

/-- `create_ngrams`: word n-grams of a text.  The words are `text.split()`;
the windows are `range(len(words) - n + 1)` (empty when `len(words) < n`,
which `len + 1 - n` matches in `ℕ`), each joined by a single space; the
result is the Python set of those strings. -/
def create_ngrams (text : String) (n : ℕ) : Finset String :=
  let words := pySplit text
  ((List.range (words.length + 1 - n)).map
    (fun i => " ".intercalate ((words.drop i).take n))).toFinset

/-- One pass of the inner loop of `compute_minhash_signature`: for a single
n-gram, replace `signature[i]` by `min(signature[i], mmh3hash(ngram, seed+i))`
for every slot `i` (the counter argument threads the slot index). -/
def updateSig (mmh3hash : String → Int → Int) (ngram : String) (seed : Int) :
    List (WithTop Int) → ℕ → List (WithTop Int)
  | [], _ => []
  | v :: rest, i =>
      min v ((mmh3hash ngram (seed + (i : Int)) : Int) : WithTop Int) ::
        updateSig mmh3hash ngram seed rest (i + 1)

/-- `compute_minhash_signature`: the signature starts as
`[float("inf")] * num_hashes` (here `⊤ : WithTop Int`) and each n-gram of the
set lowers every slot; iteration over the Python set is modelled by the
enumeration list `ngrams`.  An empty n-gram set yields `[0] * num_hashes`. -/
def compute_minhash_signature (mmh3hash : String → Int → Int) (ngrams : List String)
    (num_hashes : ℕ) (seed : Int) : List (WithTop Int) :=
  if ngrams = [] then List.replicate num_hashes ((0 : Int) : WithTop Int)
  else ngrams.foldl (fun signature ngram => updateSig mmh3hash ngram seed signature 0)
    (List.replicate num_hashes (⊤ : WithTop Int))

/-- The band slice `signature[band_idx * rows_per_band : (band_idx + 1) * rows_per_band]`. -/
def bandSlice (signature : List β) (rows_per_band band_idx : ℕ) : List β :=
  (signature.drop (band_idx * rows_per_band)).take rows_per_band

/-- `buckets[k].append(d)` (creating `buckets[k]` first if absent): update the
first entry with key `k` in place, or append a new `(k, [d])` entry at the
end, as dict insertion does. -/
def bucketsAdd : List (κ × List α) → κ → α → List (κ × List α)
  | [], k, d => [(k, [d])]
  | (k₁, ds) :: rest, k, d =>
      if k = k₁ then (k₁, ds ++ [d]) :: rest else (k₁, ds) :: bucketsAdd rest k d

/-- `buckets[k]` with default `[]`. -/
def bucketsGet : List (κ × List α) → κ → List α
  | [], _ => []
  | (k₁, ds) :: rest, k => if k = k₁ then ds else bucketsGet rest k

/-- `apply_lsh`: for each document and each `band_idx < num_bands`, add the
document to the bucket keyed by `(band_idx, band)` where `band` is the band
slice of its signature.  `rows_per_band` is the floor division
`len(first signature) // num_bands`, exactly as in the source (which therefore
silently ignores trailing signature rows when the division is uneven).
Python keys buckets by `hash((band_idx, band))`; the key is modelled as the
pair itself. -/
def apply_lsh (signatures : List (α × List β)) (num_bands : ℕ) :
    List ((ℕ × List β) × List α) :=
  match signatures with
  | [] => []
  | (_, sig₀) :: _ =>
    let rows_per_band := sig₀.length / num_bands
    signatures.foldl
      (fun buckets ds =>
        (List.range num_bands).foldl
          (fun bks band_idx =>
            bucketsAdd bks (band_idx, bandSlice ds.2 rows_per_band band_idx) ds.1)
          buckets)
      []

/-- `compute_jaccard_similarity`: intersection size over union size, with the
two-empty-sets case defined as 1.  The Python float quotient of the two
nonnegative integers is modelled exactly in `ℚ`. -/
def compute_jaccard_similarity (set1 set2 : Finset α) : ℚ :=
  if set1 = ∅ ∧ set2 = ∅ then 1
  else ((set1 ∩ set2).card : ℚ) / ((set1 ∪ set2).card : ℚ)

/-- All ordered pairs `(l[i], l[j])` with `i < j`, in the order the double
loop `for i in range(len(l)): for j in range(i+1, len(l))` visits them. -/
def pairsOf : List α → List (α × α)
  | [] => []
  | x :: xs => xs.map (fun y => (x, y)) ++ pairsOf xs

/-- `duplicates.get(d, set())` on the duplicates dict (an association list). -/
def dupsGet : List (α × Finset α) → α → Finset α
  | [], _ => ∅
  | (k, v) :: rest, d => if d = k then v else dupsGet rest d

/-- `duplicates[a].add(b)` (creating `duplicates[a] = set()` first if absent). -/
def addDup : List (α × Finset α) → α → α → List (α × Finset α)
  | [], a, b => [(a, {b})]
  | (k, v) :: rest, a, b =>
      if a = k then (k, insert b v) :: rest else (k, v) :: addDup rest a b

/-- The body of the candidate-pair loop of `find_duplicate_clusters`: skip the
pair if already recorded, otherwise compare Jaccard similarity against the
threshold and, on success, record the edge in both directions. -/
def dupStep (doc_ngrams : α → Finset String) (jaccard_threshold : ℚ)
    (dups : List (α × Finset α)) (p : α × α) : List (α × Finset α) :=
  if p.2 ∈ dupsGet dups p.1 then dups
  else if jaccard_threshold ≤ compute_jaccard_similarity (doc_ngrams p.1) (doc_ngrams p.2) then
    addDup (addDup dups p.1 p.2) p.2 p.1
  else dups

/-- The duplicates dict built by the first phase of `find_duplicate_clusters`:
for every bucket with at least two documents, every pair in the bucket is
tested and confirmed pairs are recorded symmetrically. -/
def computeDuplicates (doc_ngrams : α → Finset String) (jaccard_threshold : ℚ)
    (candidates : List (κ × List α)) : List (α × Finset α) :=
  candidates.foldl
    (fun dups bucket =>
      if bucket.2.length < 2 then dups
      else (pairsOf bucket.2).foldl (dupStep doc_ngrams jaccard_threshold) dups)
    []

/-- A finite overapproximation of everything the BFS queue can ever contain:
the enumerations of all value sets of the duplicates dict (and of `∅`).
Used only as the termination measure of `bfsLoop`. -/
def bfsUniv (eset : Finset α → List α) (dups : List (α × Finset α)) : Finset α :=
  dups.foldr (fun p acc => (eset p.2).toFinset ∪ acc) (eset ∅).toFinset

/-- The BFS `while queue:` loop of `find_duplicate_clusters`: pop the head;
if unprocessed, append it to the cluster, mark it processed and enqueue its
unprocessed confirmed duplicates (`eset` enumerates the Python set
`duplicates.get(next_doc, [])`).  Returns the final cluster and processed set. -/
def bfsLoop (eset : Finset α → List α) (dups : List (α × Finset α)) :
    List α → List α → Finset α → List α × Finset α
  | [], cluster, processed => (cluster, processed)
  | next :: rest, cluster, processed =>
    if next ∈ processed then bfsLoop eset dups rest cluster processed
    else
      bfsLoop eset dups
        (rest ++ (eset (dupsGet dups next)).filter (fun d => decide (d ∉ insert next processed)))
        (cluster ++ [next]) (insert next processed)
  termination_by queue _ processed =>
    (((bfsUniv eset dups ∪ queue.toFinset) \ processed).card, queue.length)
  decreasing_by
  · have hsub : (bfsUniv eset dups ∪ rest.toFinset) \ processed ⊆
        (bfsUniv eset dups ∪ (next :: rest).toFinset) \ processed := by
      apply Finset.sdiff_subset_sdiff _ le_rfl
      apply Finset.union_subset_union_right
      intro x hx
      simp only [List.toFinset_cons, Finset.mem_insert]
      exact Or.inr hx
    rcases lt_or_eq_of_le (Finset.card_le_card hsub) with h | h
    · exact Prod.Lex.left _ _ h
    · rw [h]
      exact Prod.Lex.right _ (Nat.lt_succ_self _)
  · rename_i hnp
    have hU : (eset (dupsGet dups next)).toFinset ⊆ bfsUniv eset dups := by
      induction dups with
      | nil =>
        simp only [dupsGet, bfsUniv, List.foldr_nil]
        exact subset_rfl
      | cons p tl ih =>
        obtain ⟨k, v⟩ := p
        simp only [bfsUniv, List.foldr_cons] at ih ⊢
        by_cases hy : next = k
        · simp only [dupsGet, if_pos hy]
          exact Finset.subset_union_left
        · simp only [dupsGet, if_neg hy]
          exact ih.trans Finset.subset_union_right
    apply Prod.Lex.left
    apply Finset.card_lt_card
    constructor
    · intro x hx
      simp only [Finset.mem_sdiff, Finset.mem_union, List.mem_toFinset, List.mem_append,
        List.mem_filter, List.mem_cons, Finset.mem_insert, decide_eq_true_eq] at hx ⊢
      obtain ⟨hx1, hx2⟩ := hx
      push_neg at hx2
      refine ⟨?_, hx2.2⟩
      rcases hx1 with h | h
      · exact Or.inl h
      · rcases h with h | h
        · exact Or.inr (Or.inr h)
        · exact Or.inl (hU (List.mem_toFinset.mpr h.1))
    · intro hsub
      have hmem : next ∈ (bfsUniv eset dups ∪ (next :: rest).toFinset) \ processed := by
        simp only [Finset.mem_sdiff, Finset.mem_union, List.mem_toFinset, List.mem_cons]
        exact ⟨Or.inr (Or.inl trivial), hnp⟩
      have h2 := hsub hmem
      simp only [Finset.mem_sdiff, Finset.mem_insert] at h2
      exact h2.2 (Or.inl trivial)

/-- The outer loop of `find_duplicate_clusters`: for each document (in dict
key order), if unprocessed, grow its cluster by BFS and emit it when it has
more than one member. -/
def clustersLoop (eset : Finset α → List α) (dups : List (α × Finset α)) :
    List α → Finset α → List (List α)
  | [], _ => []
  | doc :: rest, processed =>
    if doc ∈ processed then clustersLoop eset dups rest processed
    else
      let r := bfsLoop eset dups (eset (dupsGet dups doc)) [doc] (insert doc processed)
      if 1 < r.1.length then r.1 :: clustersLoop eset dups rest r.2
      else clustersLoop eset dups rest r.2

/-- `find_duplicate_clusters`: build the confirmed-duplicate dict from the
candidate buckets, then collect BFS clusters over the documents of
`doc_ngrams` (given as its key list and lookup function). -/
def find_duplicate_clusters (eset : Finset α → List α) (candidates : List (κ × List α))
    (doc_keys : List α) (doc_ngrams : α → Finset String) (jaccard_threshold : ℚ) :
    List (List α) :=
  clustersLoop eset (computeDuplicates doc_ngrams jaccard_threshold candidates) doc_keys ∅

/-- The confirmed-duplicate-edge relation the spec talks about: two distinct
documents that co-occur in some candidate bucket and whose n-gram sets have
Jaccard similarity at least the threshold. -/
def dupRel (candidates : List (κ × List α)) (doc_ngrams : α → Finset String)
    (jaccard_threshold : ℚ) (a b : α) : Prop :=
  a ≠ b ∧ (∃ q ∈ candidates, a ∈ q.2 ∧ b ∈ q.2) ∧
    jaccard_threshold ≤ compute_jaccard_similarity (doc_ngrams a) (doc_ngrams b)

/-- Reachability along the confirmed-duplicate dict: the reflexive-transitive
closure of `v ∈ duplicates.get(u, set())`.  A BFS cluster is exactly a class
of this relation. -/
def dupReach (dups : List (α × Finset α)) : α → α → Prop :=
  Relation.ReflTransGen (fun u v => v ∈ dupsGet dups u)

/-- The function a Python dict computes after inserting the listed key/value
pairs in order (a later binding of the same key overwrites an earlier one). -/
def dictOf (entries : List (α × β)) (d₀ : β) : α → β :=
  entries.foldl (fun f p => fun x => if x = p.1 then p.2 else f x) (fun _ => d₀)

/-- Step 1 of `minhash_deduplication`: for each input document (a path paired
with the text read from it), record the original text, the n-gram set of the
normalized text, and the MinHash signature (seed 42, the source's default).
`enum` enumerates the Python n-gram set for the signature loop. -/
def minhash_doc_entries (normalize : String → String) (mmh3hash : String → Int → Int)
    (enum : Finset String → List String) (input_files : List (α × String))
    (num_hashes : ℕ) (ngrams : ℕ) :
    List (α × String × Finset String × List (WithTop Int)) :=
  input_files.map (fun pt =>
    let normalized_text := normalize pt.2
    let ngs := create_ngrams normalized_text ngrams
    (pt.1, pt.2, ngs, compute_minhash_signature mmh3hash (enum ngs) num_hashes 42))

/-- The `doc_signatures` dict of `minhash_deduplication`, as an association
list in document order. -/
def minhash_signatures (normalize : String → String) (mmh3hash : String → Int → Int)
    (enum : Finset String → List String) (input_files : List (α × String))
    (num_hashes : ℕ) (ngrams : ℕ) : List (α × List (WithTop Int)) :=
  (minhash_doc_entries normalize mmh3hash enum input_files num_hashes ngrams).map
    (fun e => (e.1, e.2.2.2))

/-- Step 2 of `minhash_deduplication`: the LSH buckets restricted to those
with more than one document (`candidate_buckets`). -/
def minhash_candidates (normalize : String → String) (mmh3hash : String → Int → Int)
    (enum : Finset String → List String) (input_files : List (α × String))
    (num_hashes num_bands : ℕ) (ngrams : ℕ) : List ((ℕ × List (WithTop Int)) × List α) :=
  (apply_lsh (minhash_signatures normalize mmh3hash enum input_files num_hashes ngrams)
    num_bands).filter (fun p => decide (1 < p.2.length))

/-- Step 3 of `minhash_deduplication`: clustering of the candidate buckets
over the document list (dict key order) and the `doc_ngrams` dict. -/
def minhash_clusters (normalize : String → String) (mmh3hash : String → Int → Int)
    (enum : Finset String → List String) (eset : Finset α → List α)
    (input_files : List (α × String)) (num_hashes num_bands : ℕ) (ngrams : ℕ)
    (jaccard_threshold : ℚ) : List (List α) :=
  find_duplicate_clusters eset
    (minhash_candidates normalize mmh3hash enum input_files num_hashes num_bands ngrams)
    ((minhash_doc_entries normalize mmh3hash enum input_files num_hashes ngrams).map Prod.fst)
    (dictOf ((minhash_doc_entries normalize mmh3hash enum input_files num_hashes ngrams).map
      (fun e => (e.1, e.2.2.1))) ∅)
    jaccard_threshold

/-- Step 4 of `minhash_deduplication`: from each cluster keep one document
(`pick` models `random.choice`) and mark the rest for removal. -/
def docs_to_remove (pick : List α → α) (clusters : List (List α)) : Finset α :=
  clusters.foldl
    (fun s cluster =>
      cluster.foldl (fun s₁ doc => if doc ≠ pick cluster then insert doc s₁ else s₁) s)
    ∅

/-- Step 5 of `minhash_deduplication`: the writes performed — every input
document not marked for removal is written to `output_dir / name(path)` with
its original text `doc_text[path]`. -/
def minhash_dedup_writes (name : α → String) (normalize : String → String)
    (mmh3hash : String → Int → Int) (enum : Finset String → List String)
    (eset : Finset α → List α) (pick : List α → α) (input_files : List (α × String))
    (num_hashes num_bands : ℕ) (ngrams : ℕ) (jaccard_threshold : ℚ) :
    List (String × String) :=
  let clusters := minhash_clusters normalize mmh3hash enum eset input_files
    num_hashes num_bands ngrams jaccard_threshold
  let remove := docs_to_remove pick clusters
  let doc_text := dictOf input_files ""
  input_files.filterMap (fun pt =>
    if pt.1 ∈ remove then none else some (name pt.1, doc_text pt.1))

/-- `minhash_deduplication`: the final output-directory state of the fuzzy
pipeline, as a map from filename to contents. -/
def minhash_deduplication (name : α → String) (normalize : String → String)
    (mmh3hash : String → Int → Int) (enum : Finset String → List String)
    (eset : Finset α → List α) (pick : List α → α) (input_files : List (α × String))
    (num_hashes num_bands : ℕ) (ngrams : ℕ) (jaccard_threshold : ℚ) :
    String → Option String :=
  outputFS (minhash_dedup_writes name normalize mmh3hash enum eset pick input_files
    num_hashes num_bands ngrams jaccard_threshold)

end Dedup

section DedupTheorems

variable {α : Type*} [DecidableEq α] {β : Type*} [DecidableEq β] {κ : Type*} [DecidableEq κ]

theorem jaccard_comm (s t : Finset α) :
    compute_jaccard_similarity s t = compute_jaccard_similarity t s := by
  unfold compute_jaccard_similarity
  by_cases h : s = ∅ ∧ t = ∅
  · rw [if_pos h, if_pos ⟨h.2, h.1⟩]
  · rw [if_neg h, if_neg (fun h2 => h ⟨h2.2, h2.1⟩), Finset.inter_comm, Finset.union_comm]

/-- C5: `compute_jaccard_similarity` always returns a value in `[0, 1]`, equal
to intersection size over union size whenever at least one set is nonempty,
with the two-empty-sets case defined as `1`; in particular the three boundary
examples of the spec hold: `J(∅, ∅) = 1`, `J({a}, ∅) = 0`,
`J({a,b}, {b,c}) = 1/3`. -/
theorem compute_jaccard_similarity_spec :
    (∀ (set1 set2 : Finset α),
      0 ≤ compute_jaccard_similarity set1 set2 ∧
      compute_jaccard_similarity set1 set2 ≤ 1 ∧
      (¬(set1 = ∅ ∧ set2 = ∅) →
        compute_jaccard_similarity set1 set2 =
          ((set1 ∩ set2).card : ℚ) / ((set1 ∪ set2).card : ℚ)) ∧
      (set1 = ∅ → set2 = ∅ → compute_jaccard_similarity set1 set2 = 1)) ∧
    compute_jaccard_similarity (∅ : Finset String) ∅ = 1 ∧
    compute_jaccard_similarity ({"a"} : Finset String) ∅ = 0 ∧
    compute_jaccard_similarity ({"a", "b"} : Finset String) {"b", "c"} = 1 / 3 := by
  refine ⟨fun set1 set2 => ⟨?_, ?_, ?_, ?_⟩, ?_, ?_, ?_⟩
  · unfold compute_jaccard_similarity
    split
    · norm_num
    · exact div_nonneg (by positivity) (by positivity)
  · unfold compute_jaccard_similarity
    split
    · norm_num
    · rename_i h
      have hne : (set1 ∪ set2).Nonempty := by
        rcases Finset.eq_empty_or_nonempty set1 with h1 | h1
        · rcases Finset.eq_empty_or_nonempty set2 with h2 | h2
          · exact absurd ⟨h1, h2⟩ h
          · exact h2.mono Finset.subset_union_right
        · exact h1.mono Finset.subset_union_left
      rw [div_le_one (by exact_mod_cast Finset.card_pos.mpr hne)]
      exact_mod_cast Finset.card_le_card Finset.inter_subset_union
  · intro h
    unfold compute_jaccard_similarity
    rw [if_neg h]
  · intro h1 h2
    unfold compute_jaccard_similarity
    rw [if_pos ⟨h1, h2⟩]
  · unfold compute_jaccard_similarity
    rw [if_pos ⟨rfl, rfl⟩]
  · unfold compute_jaccard_similarity
    rw [if_neg (by simp)]
    simp
  · unfold compute_jaccard_similarity
    rw [if_neg (by simp)]
    have h1 : (({"a", "b"} : Finset String) ∩ {"b", "c"}).card = 1 := by decide
    have h2 : (({"a", "b"} : Finset String) ∪ {"b", "c"}).card = 3 := by decide
    rw [h1, h2]
    norm_num

theorem compute_jaccard_similarity_spec_witness :
    0 ≤ compute_jaccard_similarity ({"a"} : Finset String) {"a", "b"} ∧
    compute_jaccard_similarity ({"a"} : Finset String) {"a", "b"} =
      ((({"a"} : Finset String) ∩ {"a", "b"}).card : ℚ) /
        ((({"a"} : Finset String) ∪ {"a", "b"}).card : ℚ) :=
  ⟨(compute_jaccard_similarity_spec.1 _ _).1,
   (compute_jaccard_similarity_spec.1 _ _).2.2.1 (by simp)⟩

/-- C1 (refuting the claim on the code): an invalid configuration is *not*
rejected before the corpus pass.  With `num_hashes = 3` not divisible by
`num_bands = 2`, `apply_lsh` proceeds and silently truncates each signature to
its first `num_bands * (num_hashes / num_bands) = 2` rows — the two documents
below differ in signature row 3 yet share both buckets, and the run produces
normal output rather than failing.  Likewise `create_ngrams` accepts the
invalid `n = 0`, returning the singleton of the empty string instead of
failing fast. -/
theorem apply_lsh_truncates_invalid_config :
    apply_lsh [("d1", [(1 : Int), 2, 3]), ("d2", [(1 : Int), 2, 9])] 2 =
      [((0, [(1 : Int)]), ["d1", "d2"]), ((1, [(2 : Int)]), ["d1", "d2"])] ∧
    create_ngrams "a b" 0 = {""} := by
  constructor
  · rfl
  · decide

theorem count_line_freq_file (hash_line : String → String) (file : List String)
    (c : String → ℕ) (h : String) :
    (file.foldl (fun c line => fun k => if k = hash_line line then c k + 1 else c k) c) h =
      c h + (file.map hash_line).count h := by
  induction file generalizing c with
  | nil => simp
  | cons l t ih =>
    simp only [List.foldl_cons, List.map_cons, List.count_cons, ih, beq_iff_eq]
    by_cases hl : h = hash_line l
    · subst hl
      simp
      omega
    · rw [if_neg hl, if_neg (fun e => hl e.symm)]
      omega

theorem count_line_frequency_eq (hash_line : String → String) (files : List (List String))
    (h : String) :
    count_line_frequency hash_line files h = ((files.flatten).map hash_line).count h := by
  unfold count_line_frequency
  suffices H : ∀ (fl : List (List String)) (c : String → ℕ),
      (fl.foldl
        (fun line_counter file =>
          file.foldl (fun c line => fun k => if k = hash_line line then c k + 1 else c k)
            line_counter) c) h = c h + ((fl.flatten).map hash_line).count h by
    simpa using H files (fun _ => 0)
  intro fl
  induction fl with
  | nil => intro c; simp
  | cons f t ih =>
    intro c
    simp only [List.foldl_cons, List.flatten_cons, List.map_append, List.count_append, ih,
      count_line_freq_file]
    omega

theorem exact_line_deduplication_eq (hash_line : String → String)
    (input_files : List (List String)) :
    exact_line_deduplication hash_line input_files =
      input_files.map (fun file =>
        file.filter (fun line =>
          count_line_frequency hash_line input_files (hash_line line) == 1)) := rfl

theorem flatten_filter_sublist (p : β → Bool) (fl : List (List β)) :
    ((fl.map (fun f => f.filter p)).flatten).Sublist fl.flatten := by
  induction fl with
  | nil => simp
  | cons f t ih =>
    simp only [List.map_cons, List.flatten_cons]
    exact List.Sublist.append (List.filter_sublist f) ih

/-- C6: a line survives exact-line deduplication iff its corpus-wide frequency
is exactly 1 (so any line duplicated anywhere in the corpus, including within
its own file, is dropped everywhere), with surviving lines kept in original
order and file-to-file mapping; on the corpus `A = [x,y,x]`, `B = [y,z]` the
output is `A' = []`, `B' = [z]`.  The line hash (MD5 in the source) is
assumed collision-free (injective). -/
theorem exact_line_deduplication_spec (hash_line : String → String)
    (hinj : Function.Injective hash_line) (input_files : List (List String)) :
    exact_line_deduplication hash_line input_files =
      input_files.map (fun file =>
        file.filter (fun line => (input_files.flatten).count line == 1)) ∧
    exact_line_deduplication hash_line [["x", "y", "x"], ["y", "z"]] = [[], ["z"]] := by
  have key : ∀ (fl : List (List String)),
      exact_line_deduplication hash_line fl =
        fl.map (fun file => file.filter (fun line => (fl.flatten).count line == 1)) := by
    intro fl
    rw [exact_line_deduplication_eq]
    apply List.map_congr_left
    intro file _
    apply List.filter_congr
    intro line _
    rw [count_line_frequency_eq, List.count_map_of_injective _ _ hinj]
  refine ⟨key input_files, ?_⟩
  rw [key]
  decide

theorem exact_line_deduplication_spec_witness :
    exact_line_deduplication id [["x", "y", "x"], ["y", "z"]] = [[], ["z"]] :=
  (exact_line_deduplication_spec id (fun _ _ h => h) [["x", "y", "x"], ["y", "z"]]).2

/-- C7: exact-line deduplication is idempotent — every line surviving the
first run has corpus-wide frequency exactly 1 in the output corpus, so a
second run changes nothing. -/
theorem exact_line_deduplication_idempotent (hash_line : String → String)
    (input_files : List (List String)) :
    exact_line_deduplication hash_line (exact_line_deduplication hash_line input_files) =
      exact_line_deduplication hash_line input_files := by
  rw [exact_line_deduplication_eq hash_line (exact_line_deduplication hash_line input_files)]
  have hstep : ∀ f ∈ exact_line_deduplication hash_line input_files,
      f.filter (fun line =>
        count_line_frequency hash_line (exact_line_deduplication hash_line input_files)
          (hash_line line) == 1) = f := by
    intro f hf
    rw [List.filter_eq_self]
    intro line hline
    rw [exact_line_deduplication_eq] at hf
    obtain ⟨f₀, hf₀, rfl⟩ := List.mem_map.mp hf
    have hp₁ : count_line_frequency hash_line input_files (hash_line line) = 1 := by
      have := List.of_mem_filter hline
      simpa using this
    have hle : ((exact_line_deduplication hash_line input_files).flatten.map hash_line).count
        (hash_line line) ≤ ((input_files.flatten).map hash_line).count (hash_line line) := by
      rw [exact_line_deduplication_eq]
      exact ((flatten_filter_sublist _ input_files).map hash_line).count_le _
    have hge : 0 < ((exact_line_deduplication hash_line input_files).flatten.map
        hash_line).count (hash_line line) := by
      apply List.count_pos_iff.mpr
      apply List.mem_map.mpr
      refine ⟨line, ?_, rfl⟩
      apply List.mem_flatten.mpr
      exact ⟨_, hf, hline⟩
    rw [count_line_frequency_eq] at hp₁ ⊢
    simp only [beq_iff_eq]
    omega
  have hmap := List.map_congr_left hstep
  rw [hmap]
  simp

theorem updateSig_length (mmh3hash : String → Int → Int) (ngram : String) (seed : Int)
    (sig : List (WithTop Int)) (i : ℕ) :
    (updateSig mmh3hash ngram seed sig i).length = sig.length := by
  induction sig generalizing i with
  | nil => rfl
  | cons v rest ih => simp [updateSig, ih]

theorem updateSig_getElem? (mmh3hash : String → Int → Int) (ngram : String) (seed : Int)
    (sig : List (WithTop Int)) (i j : ℕ) :
    (updateSig mmh3hash ngram seed sig i)[j]? =
      (sig[j]?).map
        (fun v => min v ((mmh3hash ngram (seed + (i : Int) + (j : Int)) : Int) : WithTop Int)) := by
  induction sig generalizing i j with
  | nil => simp [updateSig]
  | cons v rest ih =>
    cases j with
    | zero => simp [updateSig]
    | succ j =>
      have harith : seed + ((i + 1 : ℕ) : Int) + (j : Int) = seed + (i : Int) + ((j + 1 : ℕ) : Int) := by
        push_cast
        ring
      simp only [updateSig, List.getElem?_cons_succ, ih (i + 1) j, harith]

theorem minhash_fold_getElem? (mmh3hash : String → Int → Int) (seed : Int) (l : List String)
    (sig : List (WithTop Int)) (j : ℕ) :
    (l.foldl (fun signature ngram => updateSig mmh3hash ngram seed signature 0) sig)[j]? =
      (sig[j]?).map
        (fun v => l.foldl
          (fun w g => min w ((mmh3hash g (seed + (j : Int)) : Int) : WithTop Int)) v) := by
  induction l generalizing sig with
  | nil => simp
  | cons g t ih =>
    simp only [List.foldl_cons, ih, updateSig_getElem?, Option.map_map]
    congr 1
    funext v
    simp [Function.comp]

theorem foldl_min_eq_inf (f : String → Int) (l : List String) (v : WithTop Int) :
    l.foldl (fun w g => min w ((f g : Int) : WithTop Int)) v =
      v ⊓ l.toFinset.inf (fun g => ((f g : Int) : WithTop Int)) := by
  induction l generalizing v with
  | nil => simp
  | cons g t ih =>
    simp only [List.foldl_cons, List.toFinset_cons, Finset.inf_insert, ih]
    exact inf_assoc ..

theorem compute_minhash_signature_length (mmh3hash : String → Int → Int)
    (ngrams : List String) (num_hashes : ℕ) (seed : Int) :
    (compute_minhash_signature mmh3hash ngrams num_hashes seed).length = num_hashes := by
  unfold compute_minhash_signature
  split
  · exact List.length_replicate ..
  · have hfold : ∀ (l : List String) (sig : List (WithTop Int)),
        (l.foldl (fun signature ngram => updateSig mmh3hash ngram seed signature 0) sig).length =
          sig.length := by
      intro l
      induction l with
      | nil => intro sig; rfl
      | cons g t ih => intro sig; rw [List.foldl_cons, ih, updateSig_length]
    rw [hfold, List.length_replicate]

theorem compute_minhash_signature_entry (mmh3hash : String → Int → Int)
    (ngrams : List String) (num_hashes : ℕ) (seed : Int) (hne : ngrams ≠ [])
    (j : ℕ) (hj : j < num_hashes) :
    (compute_minhash_signature mmh3hash ngrams num_hashes seed)[j]? =
      some (ngrams.toFinset.inf
        (fun g => ((mmh3hash g (seed + (j : Int)) : Int) : WithTop Int))) := by
  unfold compute_minhash_signature
  rw [if_neg hne, minhash_fold_getElem?, List.getElem?_replicate, if_pos hj,
    Option.map_some', foldl_min_eq_inf, top_inf_eq]

theorem compute_minhash_signature_set_dep (mmh3hash : String → Int → Int)
    (l₁ l₂ : List String) (num_hashes : ℕ) (seed : Int) (hset : l₁.toFinset = l₂.toFinset) :
    compute_minhash_signature mmh3hash l₁ num_hashes seed =
      compute_minhash_signature mmh3hash l₂ num_hashes seed := by
  by_cases h1 : l₁ = []
  · subst h1
    have h2 : l₂ = [] := by
      apply (List.toFinset_eq_empty_iff l₂).mp
      rw [← hset]
      rfl
    rw [h2]
  · have h2 : l₂ ≠ [] := by
      intro h
      apply h1
      apply (List.toFinset_eq_empty_iff l₁).mp
      rw [hset, h]
      rfl
    apply List.ext_getElem?
    intro j
    by_cases hj : j < num_hashes
    · rw [compute_minhash_signature_entry mmh3hash l₁ num_hashes seed h1 j hj,
        compute_minhash_signature_entry mmh3hash l₂ num_hashes seed h2 j hj, hset]
    · rw [List.getElem?_eq_none, List.getElem?_eq_none]
      · rw [compute_minhash_signature_length]
        omega
      · rw [compute_minhash_signature_length]
        omega

/-- C4: `compute_minhash_signature` returns exactly `num_hashes` values; for a
nonempty shingle set, slot `j` is the minimum over all shingles of the hash
under seed `seed + j`; for the empty shingle set every slot is the sentinel 0;
and the result depends only on the shingle *set* — any two enumerations of the
same set produce bit-identical signatures. -/
theorem compute_minhash_signature_spec (mmh3hash : String → Int → Int) :
    (∀ (ngrams : List String) (num_hashes : ℕ) (seed : Int),
      (compute_minhash_signature mmh3hash ngrams num_hashes seed).length = num_hashes) ∧
    (∀ (num_hashes : ℕ) (seed : Int),
      compute_minhash_signature mmh3hash [] num_hashes seed =
        List.replicate num_hashes ((0 : Int) : WithTop Int)) ∧
    (∀ (ngrams : List String) (num_hashes : ℕ) (seed : Int)
      (hne : ngrams.toFinset.Nonempty) (j : ℕ), j < num_hashes →
      (compute_minhash_signature mmh3hash ngrams num_hashes seed)[j]? =
        some ((ngrams.toFinset.inf' hne (fun g => mmh3hash g (seed + (j : Int))) : Int) :
          WithTop Int)) ∧
    (∀ (l₁ l₂ : List String) (num_hashes : ℕ) (seed : Int), l₁.toFinset = l₂.toFinset →
      compute_minhash_signature mmh3hash l₁ num_hashes seed =
        compute_minhash_signature mmh3hash l₂ num_hashes seed) := by
  refine ⟨compute_minhash_signature_length mmh3hash, ?_, ?_,
    compute_minhash_signature_set_dep mmh3hash⟩
  · intro n s
    unfold compute_minhash_signature
    rw [if_pos rfl]
  · intro l n s hne j hj
    have hl : l ≠ [] := by
      intro h
      simp [h] at hne
    rw [compute_minhash_signature_entry mmh3hash l n s hl j hj]
    congr 1
    rw [Finset.coe_inf' hne]
    rfl

theorem compute_minhash_signature_spec_witness :
    (compute_minhash_signature (fun g i => (g.length : Int) + i) ["ab", "c"] 3 5).length = 3 ∧
    compute_minhash_signature (fun g i => (g.length : Int) + i) ["ab", "c"] 3 5 =
      compute_minhash_signature (fun g i => (g.length : Int) + i) ["c", "ab", "c"] 3 5 :=
  ⟨(compute_minhash_signature_spec _).1 _ _ _,
   (compute_minhash_signature_spec _).2.2.2 _ _ _ _ (by decide)⟩

theorem bucketsGet_bucketsAdd (bks : List (κ × List α)) (k k₂ : κ) (d : α) :
    bucketsGet (bucketsAdd bks k d) k₂ =
      if k₂ = k then bucketsGet bks k ++ [d] else bucketsGet bks k₂ := by
  induction bks with
  | nil =>
    by_cases h : k₂ = k
    · simp [bucketsAdd, bucketsGet, h]
    · simp [bucketsAdd, bucketsGet, h]
  | cons p rest ih =>
    obtain ⟨k₁, ds⟩ := p
    by_cases h1 : k = k₁
    · subst h1
      by_cases h2 : k₂ = k
      · subst h2
        simp [bucketsAdd, bucketsGet]
      · simp [bucketsAdd, bucketsGet, h2]
    · by_cases h2 : k₂ = k₁
      · subst h2
        simp [bucketsAdd, bucketsGet, h1, Ne.symm h1]
      · simp [bucketsAdd, bucketsGet, h1, h2, ih]

theorem count_bucketsGet_bucketsAdd (bks : List (κ × List α)) (k k₂ : κ) (d d₂ : α) :
    ((bucketsGet (bucketsAdd bks k d) k₂).count d₂) =
      (bucketsGet bks k₂).count d₂ + if k₂ = k ∧ d₂ = d then 1 else 0 := by
  rw [bucketsGet_bucketsAdd]
  by_cases h : k₂ = k
  · subst h
    rw [if_pos rfl, List.count_append, List.count_singleton']
    by_cases hd : d₂ = d
    · subst hd
      simp
    · rw [if_neg (Ne.symm hd), if_neg (fun hc => hd hc.2)]
  · rw [if_neg h, if_neg (fun hc => h hc.1)]
    omega

theorem count_bucketsGet_innerfold (doc : α) (kf : ℕ → κ) (L : List ℕ)
    (bks : List (κ × List α)) (k : κ) (d₂ : α) :
    (bucketsGet (L.foldl (fun bks i => bucketsAdd bks (kf i) doc) bks) k).count d₂ =
      (bucketsGet bks k).count d₂ +
        if d₂ = doc then L.countP (fun i => decide (k = kf i)) else 0 := by
  induction L generalizing bks with
  | nil => simp
  | cons i T ih =>
    rw [List.foldl_cons, ih, count_bucketsGet_bucketsAdd, List.countP_cons]
    by_cases hd : d₂ = doc
    · by_cases hk : k = kf i
      · simp [hd, hk]
        omega
      · simp [hd, hk]
    · simp [hd]

theorem count_bucketsGet_outer (nb rows : ℕ) (S : List (α × List β))
    (bks : List ((ℕ × List β) × List α)) (k : ℕ × List β) (d : α) :
    (bucketsGet
      (S.foldl
        (fun buckets ds =>
          (List.range nb).foldl
            (fun bks band_idx => bucketsAdd bks (band_idx, bandSlice ds.2 rows band_idx) ds.1)
            buckets)
        bks) k).count d =
      (bucketsGet bks k).count d +
        S.countP (fun p => decide (p.1 = d ∧ k.1 < nb ∧ k.2 = bandSlice p.2 rows k.1)) := by
  induction S generalizing bks with
  | nil => simp
  | cons p T ih =>
    rw [List.foldl_cons, ih, count_bucketsGet_innerfold, List.countP_cons]
    have hrange : (List.range nb).countP (fun i => decide (k = (i, bandSlice p.2 rows i))) =
        if k.1 < nb ∧ k.2 = bandSlice p.2 rows k.1 then 1 else 0 := by
      obtain ⟨k1, k2⟩ := k
      by_cases hkk : k1 < nb ∧ k2 = bandSlice p.2 rows k1
      · rw [if_pos hkk]
        have hc : (List.range nb).countP (fun i => decide ((k1, k2) = (i, bandSlice p.2 rows i))) =
            (List.range nb).countP (fun i => i == k1) := by
          apply List.countP_congr
          intro i hi
          simp only [decide_eq_true_eq, beq_iff_eq]
          constructor
          · intro he
            exact (congrArg Prod.fst he).symm
          · intro he
            subst he
            rw [hkk.2]
        rw [hc, ← List.count_eq_countP]
        exact List.count_eq_one_of_mem (List.nodup_range nb) (List.mem_range.mpr hkk.1)
      · rw [if_neg hkk]
        rw [List.countP_eq_length_filter]
        rw [List.filter_eq_nil_iff.mpr ?_]
        · rfl
        · intro i hi
          simp only [decide_eq_true_eq]
          intro he
          apply hkk
          have h1 : k1 = i := congrArg Prod.fst he
          have h2 : k2 = bandSlice p.2 rows i := congrArg Prod.snd he
          subst h1
          exact ⟨List.mem_range.mp hi, h2⟩
    rw [hrange]
    by_cases hd : p.1 = d
    · by_cases hm : k.1 < nb ∧ k.2 = bandSlice p.2 rows k.1
      · simp [hd, hm]
        omega
      · simp [hd, hm]
    · have hnc : ¬(p.1 = d ∧ k.1 < nb ∧ k.2 = bandSlice p.2 rows k.1) := fun hc => hd hc.1
      simp [Ne.symm hd, hnc]

theorem count_bucketsGet_apply_lsh (sigs : List (α × List β)) (nb H : ℕ)
    (hlen : ∀ p ∈ sigs, p.2.length = H) (k : ℕ × List β) (d : α) :
    (bucketsGet (apply_lsh sigs nb) k).count d =
      sigs.countP (fun p => decide (p.1 = d ∧ k.1 < nb ∧ k.2 = bandSlice p.2 (H / nb) k.1)) := by
  match sigs with
  | [] => simp [apply_lsh, bucketsGet]
  | (d₀, sig₀) :: rest =>
    have hH : sig₀.length = H := hlen (d₀, sig₀) (by simp)
    show (bucketsGet
      (((d₀, sig₀) :: rest).foldl
        (fun buckets ds =>
          (List.range nb).foldl
            (fun bks band_idx =>
              bucketsAdd bks (band_idx, bandSlice ds.2 (sig₀.length / nb) band_idx) ds.1)
            buckets)
        []) k).count d = _
    rw [count_bucketsGet_outer, hH]
    simp [bucketsGet]

theorem mem_bucketsGet_apply_lsh (sigs : List (α × List β)) (nb H : ℕ)
    (hlen : ∀ p ∈ sigs, p.2.length = H) (k : ℕ × List β) (d : α) :
    d ∈ bucketsGet (apply_lsh sigs nb) k ↔
      ∃ sig, (d, sig) ∈ sigs ∧ k.1 < nb ∧ k.2 = bandSlice sig (H / nb) k.1 := by
  rw [← List.count_pos_iff, count_bucketsGet_apply_lsh sigs nb H hlen, List.countP_pos_iff]
  constructor
  · rintro ⟨p, hp, hcond⟩
    simp only [decide_eq_true_eq] at hcond
    obtain ⟨h1, h2⟩ := hcond
    refine ⟨p.2, ?_, h2⟩
    rw [← h1, Prod.mk.eta]
    exact hp
  · rintro ⟨sig, hmem, hcond⟩
    exact ⟨(d, sig), hmem, by simpa using hcond⟩

theorem keys_bucketsAdd (bks : List (κ × List α)) (k : κ) (d : α) :
    (bucketsAdd bks k d).map Prod.fst =
      if k ∈ bks.map Prod.fst then bks.map Prod.fst else bks.map Prod.fst ++ [k] := by
  induction bks with
  | nil => simp [bucketsAdd]
  | cons p rest ih =>
    obtain ⟨k₁, ds⟩ := p
    by_cases h : k = k₁
    · subst h
      simp [bucketsAdd]
    · simp only [bucketsAdd, if_neg h, List.map_cons, ih, List.mem_cons]
      by_cases hm : k ∈ rest.map Prod.fst
      · rw [if_pos hm, if_pos (Or.inr hm)]
      · rw [if_neg hm, if_neg (by rintro (e | e) <;> [exact h e; exact hm e])]
        rfl

theorem keys_nodup_bucketsAdd (bks : List (κ × List α)) (k : κ) (d : α)
    (hnd : (bks.map Prod.fst).Nodup) : ((bucketsAdd bks k d).map Prod.fst).Nodup := by
  rw [keys_bucketsAdd]
  split
  · exact hnd
  · rename_i h
    rw [List.nodup_append]
    refine ⟨hnd, List.nodup_singleton _, ?_⟩
    intro a ha hb
    rw [List.mem_singleton] at hb
    subst hb
    exact h ha

theorem mem_keys_of_mem_bucketsGet (bks : List (κ × List α)) (k : κ) (d : α)
    (hd : d ∈ bucketsGet bks k) : k ∈ bks.map Prod.fst := by
  induction bks with
  | nil => simp [bucketsGet] at hd
  | cons p rest ih =>
    obtain ⟨k₁, ds⟩ := p
    simp only [bucketsGet] at hd
    by_cases h : k = k₁
    · simp [h]
    · rw [if_neg h] at hd
      simp [ih hd]

theorem mem_entry_iff_bucketsGet (bks : List (κ × List α))
    (hnd : (bks.map Prod.fst).Nodup) (p : κ × List α) (hp : p ∈ bks) (d : α) :
    d ∈ p.2 ↔ d ∈ bucketsGet bks p.1 := by
  induction bks with
  | nil => cases hp
  | cons q rest ih =>
    obtain ⟨k₁, ds⟩ := q
    rw [List.map_cons, List.nodup_cons] at hnd
    rcases List.mem_cons.mp hp with h | h
    · subst h
      simp [bucketsGet]
    · have hk : p.1 ≠ k₁ := by
        intro e
        apply hnd.1
        rw [← e]
        exact List.mem_map.mpr ⟨p, h, rfl⟩
      simp only [bucketsGet, if_neg hk]
      exact ih hnd.2 h

theorem nodup_keys_entry_unique (sigs : List (α × β)) (hnd : (sigs.map Prod.fst).Nodup)
    (a : α) (b₁ b₂ : β) (h₁ : (a, b₁) ∈ sigs) (h₂ : (a, b₂) ∈ sigs) : b₁ = b₂ := by
  induction sigs with
  | nil => cases h₁
  | cons p rest ih =>
    rw [List.map_cons, List.nodup_cons] at hnd
    rcases List.mem_cons.mp h₁ with e₁ | m₁ <;> rcases List.mem_cons.mp h₂ with e₂ | m₂
    · exact congrArg Prod.snd (e₁.trans e₂.symm)
    · exfalso
      apply hnd.1
      rw [← e₁]
      exact List.mem_map.mpr ⟨(a, b₂), m₂, rfl⟩
    · exfalso
      apply hnd.1
      rw [← e₂]
      exact List.mem_map.mpr ⟨(a, b₁), m₁, rfl⟩
    · exact ih hnd.2 m₁ m₂

theorem apply_lsh_keys_nodup (sigs : List (α × List β)) (nb : ℕ) :
    ((apply_lsh sigs nb).map Prod.fst).Nodup := by
  have hinner : ∀ (doc : α) (sig : List β) (rows : ℕ) (L : List ℕ)
      (bks : List ((ℕ × List β) × List α)), (bks.map Prod.fst).Nodup →
      ((L.foldl (fun bks band_idx => bucketsAdd bks (band_idx, bandSlice sig rows band_idx) doc)
        bks).map Prod.fst).Nodup := by
    intro doc sig rows L
    induction L with
    | nil => intro bks h; exact h
    | cons i T ih =>
      intro bks h
      exact ih _ (keys_nodup_bucketsAdd _ _ _ h)
  have houter : ∀ (rows nb : ℕ) (S : List (α × List β)) (bks : List ((ℕ × List β) × List α)),
      (bks.map Prod.fst).Nodup →
      ((S.foldl
        (fun buckets ds =>
          (List.range nb).foldl
            (fun bks band_idx => bucketsAdd bks (band_idx, bandSlice ds.2 rows band_idx) ds.1)
            buckets)
        bks).map Prod.fst).Nodup := by
    intro rows nb S
    induction S with
    | nil => intro bks h; exact h
    | cons p T ih =>
      intro bks h
      exact ih _ (hinner _ _ _ _ _ h)
  match sigs with
  | [] => simp [apply_lsh]
  | (d₀, sig₀) :: rest =>
    exact houter (sig₀.length / nb) nb ((d₀, sig₀) :: rest) [] (by simp)

/-- C8: under `apply_lsh`, every document of the signature map lies in exactly
`num_bands` buckets (one per band index), each bucket is keyed by the pair
(band index, band slice of the signature), and two documents lie in a common
bucket exactly when they agree on that band's signature rows for the same
band index. -/
theorem apply_lsh_buckets_spec (sigs : List (α × List β)) (num_bands H : ℕ)
    (_hnb : 0 < num_bands) (hnd : (sigs.map Prod.fst).Nodup)
    (hlen : ∀ p ∈ sigs, p.2.length = H) :
    (∀ d sig, (d, sig) ∈ sigs →
      ((apply_lsh sigs num_bands).countP (fun p => decide (d ∈ p.2)) = num_bands ∧
       ∀ k, d ∈ bucketsGet (apply_lsh sigs num_bands) k ↔
         k ∈ (Finset.range num_bands).image
           (fun b => (b, bandSlice sig (H / num_bands) b)))) ∧
    (∀ p ∈ apply_lsh sigs num_bands, ∀ d₁ sig₁ d₂ sig₂,
      (d₁, sig₁) ∈ sigs → (d₂, sig₂) ∈ sigs →
      ((d₁ ∈ p.2 ∧ d₂ ∈ p.2) ↔
        (p.1.1 < num_bands ∧ p.1.2 = bandSlice sig₁ (H / num_bands) p.1.1 ∧
          bandSlice sig₁ (H / num_bands) p.1.1 = bandSlice sig₂ (H / num_bands) p.1.1))) := by
  have hknd := apply_lsh_keys_nodup sigs num_bands
  have hchar : ∀ d sig, (d, sig) ∈ sigs → ∀ k,
      d ∈ bucketsGet (apply_lsh sigs num_bands) k ↔
        k ∈ (Finset.range num_bands).image
          (fun b => (b, bandSlice sig (H / num_bands) b)) := by
    intro d sig hds k
    rw [mem_bucketsGet_apply_lsh sigs num_bands H hlen]
    constructor
    · rintro ⟨sig', hmem, hb, hslice⟩
      have : sig' = sig := nodup_keys_entry_unique sigs hnd d sig' sig hmem hds
      subst this
      apply Finset.mem_image.mpr
      refine ⟨k.1, Finset.mem_range.mpr hb, ?_⟩
      rw [← hslice]
    · intro hk
      obtain ⟨b, hb, he⟩ := Finset.mem_image.mp hk
      refine ⟨sig, hds, ?_, ?_⟩
      · rw [← he]
        exact Finset.mem_range.mp hb
      · rw [← he]
  refine ⟨fun d sig hds => ⟨?_, hchar d sig hds⟩, ?_⟩
  · have hstep1 : (apply_lsh sigs num_bands).countP (fun p => decide (d ∈ p.2)) =
        (apply_lsh sigs num_bands).countP
          (fun p => decide (d ∈ bucketsGet (apply_lsh sigs num_bands) p.1)) := by
      apply List.countP_congr
      intro p hp
      simp only [decide_eq_true_eq]
      exact mem_entry_iff_bucketsGet _ hknd p hp d
    have hstep2 : ((apply_lsh sigs num_bands).map Prod.fst).countP
        (fun key => decide (d ∈ bucketsGet (apply_lsh sigs num_bands) key)) =
        (apply_lsh sigs num_bands).countP
          (fun p => decide (d ∈ bucketsGet (apply_lsh sigs num_bands) p.1)) :=
      List.countP_map _ _ _
    rw [hstep1, ← hstep2]
    have hfil : ((apply_lsh sigs num_bands).map Prod.fst).filter
        (fun key => decide (d ∈ bucketsGet (apply_lsh sigs num_bands) key)) =
        ((apply_lsh sigs num_bands).map Prod.fst).filter
          (fun key => decide (key ∈ (Finset.range num_bands).image
            (fun b => (b, bandSlice sig (H / num_bands) b)))) := by
      apply List.filter_congr
      intro k hk
      simp only [decide_eq_true_eq, hchar d sig hds k]
    rw [List.countP_eq_length_filter, hfil]
    have hnodupf : (((apply_lsh sigs num_bands).map Prod.fst).filter
        (fun key => decide (key ∈ (Finset.range num_bands).image
          (fun b => (b, bandSlice sig (H / num_bands) b))))).Nodup :=
      List.Nodup.sublist (List.filter_sublist _) hknd
    rw [← List.toFinset_card_of_nodup hnodupf, List.toFinset_filter]
    have hset : (((apply_lsh sigs num_bands).map Prod.fst).toFinset.filter
        (fun key => decide (key ∈ (Finset.range num_bands).image
          (fun b => (b, bandSlice sig (H / num_bands) b))) = true)) =
        (Finset.range num_bands).image (fun b => (b, bandSlice sig (H / num_bands) b)) := by
      apply Finset.ext
      intro k
      simp only [Finset.mem_filter, decide_eq_true_eq, List.mem_toFinset]
      constructor
      · rintro ⟨-, hk⟩
        exact hk
      · intro hk
        refine ⟨?_, hk⟩
        apply mem_keys_of_mem_bucketsGet (apply_lsh sigs num_bands) k d
        exact (hchar d sig hds k).mpr hk
    rw [hset, Finset.card_image_of_injective _ (fun a b h => congrArg Prod.fst h),
      Finset.card_range]
  · intro p hp d₁ sig₁ d₂ sig₂ h₁ h₂
    rw [mem_entry_iff_bucketsGet _ hknd p hp d₁, mem_entry_iff_bucketsGet _ hknd p hp d₂,
      hchar d₁ sig₁ h₁ p.1, hchar d₂ sig₂ h₂ p.1]
    simp only [Finset.mem_image, Finset.mem_range]
    constructor
    · rintro ⟨⟨b₁, hb₁, he₁⟩, ⟨b₂, hb₂, he₂⟩⟩
      have hbb₁ : b₁ = p.1.1 := congrArg Prod.fst he₁
      have hbb₂ : b₂ = p.1.1 := congrArg Prod.fst he₂
      subst hbb₁
      subst hbb₂
      have hs₁ : p.1.2 = bandSlice sig₁ (H / num_bands) p.1.1 := (congrArg Prod.snd he₁).symm
      have hs₂ : p.1.2 = bandSlice sig₂ (H / num_bands) p.1.1 := (congrArg Prod.snd he₂).symm
      exact ⟨hb₁, hs₁, hs₁.symm.trans hs₂⟩
    · rintro ⟨hb, hs₁, hs₂⟩
      constructor
      · exact ⟨p.1.1, hb, by rw [← hs₁]⟩
      · exact ⟨p.1.1, hb, by rw [← hs₂, ← hs₁]⟩

theorem apply_lsh_buckets_spec_witness :
    (apply_lsh [(("a" : String), [(1 : Int), 2]), ("b", [1, 3])] 2).countP
      (fun p => decide ("a" ∈ p.2)) = 2 :=
  ((apply_lsh_buckets_spec [("a", [(1 : Int), 2]), ("b", [1, 3])] 2 2 (by decide) (by decide)
      (by decide)).1 "a" [1, 2] (by decide)).1

theorem pairsOf_mem_both (l : List α) (a b : α) (h : (a, b) ∈ pairsOf l) :
    a ∈ l ∧ b ∈ l := by
  induction l with
  | nil => cases h
  | cons x xs ih =>
    rw [pairsOf] at h
    rcases List.mem_append.mp h with h | h
    · obtain ⟨y, hy, he⟩ := List.mem_map.mp h
      cases he
      exact ⟨List.mem_cons_self .., List.mem_cons_of_mem _ hy⟩
    · obtain ⟨ha, hb⟩ := ih h
      exact ⟨List.mem_cons_of_mem _ ha, List.mem_cons_of_mem _ hb⟩

theorem pairsOf_ne (l : List α) (hnd : l.Nodup) (a b : α) (h : (a, b) ∈ pairsOf l) :
    a ≠ b := by
  induction l with
  | nil => cases h
  | cons x xs ih =>
    rw [pairsOf] at h
    rw [List.nodup_cons] at hnd
    rcases List.mem_append.mp h with h | h
    · obtain ⟨y, hy, he⟩ := List.mem_map.mp h
      cases he
      intro e
      subst e
      exact hnd.1 hy
    · exact ih hnd.2 h

theorem pairsOf_total (l : List α) (a b : α) (ha : a ∈ l) (hb : b ∈ l) (hne : a ≠ b) :
    (a, b) ∈ pairsOf l ∨ (b, a) ∈ pairsOf l := by
  induction l with
  | nil => cases ha
  | cons x xs ih =>
    rw [pairsOf]
    rcases List.mem_cons.mp ha with rfl | ha₁
    · rcases List.mem_cons.mp hb with rfl | hb₁
      · exact absurd rfl hne
      · exact Or.inl (List.mem_append_left _ (List.mem_map.mpr ⟨b, hb₁, rfl⟩))
    · rcases List.mem_cons.mp hb with rfl | hb₁
      · exact Or.inr (List.mem_append_left _ (List.mem_map.mpr ⟨a, ha₁, rfl⟩))
      · rcases ih ha₁ hb₁ with h | h
        · exact Or.inl (List.mem_append_right _ h)
        · exact Or.inr (List.mem_append_right _ h)

theorem pairsOf_short (l : List α) (h : l.length < 2) : pairsOf l = [] := by
  match l with
  | [] => rfl
  | [x] => rfl
  | x :: y :: t =>
    exfalso
    simp only [List.length_cons] at h
    omega

theorem dupsGet_addDup (dups : List (α × Finset α)) (a b x : α) :
    dupsGet (addDup dups a b) x =
      if x = a then insert b (dupsGet dups a) else dupsGet dups x := by
  induction dups with
  | nil =>
    by_cases h : x = a
    · simp [addDup, dupsGet, h]
    · simp [addDup, dupsGet, h]
  | cons p rest ih =>
    obtain ⟨k, v⟩ := p
    by_cases h1 : a = k
    · subst h1
      by_cases h2 : x = a
      · simp [addDup, dupsGet, h2]
      · simp [addDup, dupsGet, h2]
    · by_cases h2 : x = k
      · subst h2
        have hxa : x ≠ a := fun e => h1 e.symm
        simp [addDup, dupsGet, h1, hxa]
      · simp [addDup, dupsGet, h1, h2, ih]

theorem dupsGet_dupStep (ng : α → Finset String) (τ : ℚ) (dups : List (α × Finset α))
    (p : α × α) (hsym : ∀ x y, y ∈ dupsGet dups x → x ∈ dupsGet dups y) (x y : α) :
    y ∈ dupsGet (dupStep ng τ dups p) x ↔
      (y ∈ dupsGet dups x ∨
        (τ ≤ compute_jaccard_similarity (ng p.1) (ng p.2) ∧
          ((x = p.1 ∧ y = p.2) ∨ (x = p.2 ∧ y = p.1)))) := by
  unfold dupStep
  by_cases hskip : p.2 ∈ dupsGet dups p.1
  · rw [if_pos hskip]
    constructor
    · exact Or.inl
    · rintro (h | ⟨hτ, (⟨rfl, rfl⟩ | ⟨rfl, rfl⟩)⟩)
      · exact h
      · exact hskip
      · exact hsym _ _ hskip
  · rw [if_neg hskip]
    by_cases hτ : τ ≤ compute_jaccard_similarity (ng p.1) (ng p.2)
    · rw [if_pos hτ, dupsGet_addDup, dupsGet_addDup]
      by_cases hc1 : x = p.2
      · rw [if_pos hc1]
        by_cases hc2 : p.2 = p.1
        · rw [if_pos hc2]
          simp only [Finset.mem_insert]
          constructor
          · rintro (rfl | rfl | h)
            · exact Or.inr ⟨hτ, Or.inr ⟨hc1, rfl⟩⟩
            · exact Or.inr ⟨hτ, Or.inl ⟨hc1.trans hc2, rfl⟩⟩
            · exact Or.inl (by rw [hc1, hc2]; exact h)
          · rintro (h | ⟨-, (⟨h3, rfl⟩ | ⟨h3, rfl⟩)⟩)
            · exact Or.inr (Or.inr (by rw [← hc2, ← hc1]; exact h))
            · exact Or.inr (Or.inl rfl)
            · exact Or.inl rfl
        · rw [if_neg hc2]
          simp only [Finset.mem_insert]
          constructor
          · rintro (rfl | h)
            · exact Or.inr ⟨hτ, Or.inr ⟨hc1, rfl⟩⟩
            · exact Or.inl (by rw [hc1]; exact h)
          · rintro (h | ⟨-, (⟨h3, rfl⟩ | ⟨h3, rfl⟩)⟩)
            · exact Or.inr (by rw [← hc1]; exact h)
            · exact absurd (hc1.symm.trans h3) hc2
            · exact Or.inl rfl
      · rw [if_neg hc1, dupsGet_addDup]
        by_cases hc3 : x = p.1
        · rw [if_pos hc3]
          simp only [Finset.mem_insert]
          constructor
          · rintro (rfl | h)
            · exact Or.inr ⟨hτ, Or.inl ⟨hc3, rfl⟩⟩
            · exact Or.inl (by rw [hc3]; exact h)
          · rintro (h | ⟨-, (⟨h3, rfl⟩ | ⟨h3, rfl⟩)⟩)
            · exact Or.inr (by rw [← hc3]; exact h)
            · exact Or.inl rfl
            · exact absurd h3 hc1
        · rw [if_neg hc3]
          constructor
          · exact Or.inl
          · rintro (h | ⟨-, (⟨h3, -⟩ | ⟨h3, -⟩)⟩)
            · exact h
            · exact absurd h3 hc3
            · exact absurd h3 hc1
    · rw [if_neg hτ]
      constructor
      · exact Or.inl
      · rintro (h | ⟨hc, -⟩)
        · exact h
        · exact absurd hc hτ

theorem dupsGet_pairsFold (ng : α → Finset String) (τ : ℚ) (pairs : List (α × α)) :
    ∀ (dups : List (α × Finset α)),
      (∀ x y, y ∈ dupsGet dups x → x ∈ dupsGet dups y) →
      ((∀ x y, y ∈ dupsGet (pairs.foldl (dupStep ng τ) dups) x →
          x ∈ dupsGet (pairs.foldl (dupStep ng τ) dups) y) ∧
       (∀ x y, y ∈ dupsGet (pairs.foldl (dupStep ng τ) dups) x ↔
          (y ∈ dupsGet dups x ∨
            ∃ p ∈ pairs, τ ≤ compute_jaccard_similarity (ng p.1) (ng p.2) ∧
              ((x = p.1 ∧ y = p.2) ∨ (x = p.2 ∧ y = p.1))))) := by
  induction pairs with
  | nil =>
    intro dups hsym
    refine ⟨hsym, ?_⟩
    intro x y
    simp
  | cons q rest ih =>
    intro dups hsym
    rw [List.foldl_cons]
    have hsym₁ : ∀ x y, y ∈ dupsGet (dupStep ng τ dups q) x →
        x ∈ dupsGet (dupStep ng τ dups q) y := by
      intro x y h
      rw [dupsGet_dupStep ng τ dups q hsym] at h ⊢
      rcases h with h | ⟨hτ, hp⟩
      · exact Or.inl (hsym _ _ h)
      · exact Or.inr ⟨hτ, by tauto⟩
    obtain ⟨hs, hiff⟩ := ih (dupStep ng τ dups q) hsym₁
    refine ⟨hs, ?_⟩
    intro x y
    rw [hiff x y, dupsGet_dupStep ng τ dups q hsym]
    constructor
    · rintro ((h | ⟨hτ, hp⟩) | ⟨p, hp, hτ, hxy⟩)
      · exact Or.inl h
      · exact Or.inr ⟨q, List.mem_cons_self .., hτ, hp⟩
      · exact Or.inr ⟨p, List.mem_cons_of_mem _ hp, hτ, hxy⟩
    · rintro (h | ⟨p, hp, hτ, hxy⟩)
      · exact Or.inl (Or.inl h)
      · rcases List.mem_cons.mp hp with rfl | hp₁
        · exact Or.inl (Or.inr ⟨hτ, hxy⟩)
        · exact Or.inr ⟨p, hp₁, hτ, hxy⟩

theorem dupsGet_computeDuplicates (ng : α → Finset String) (τ : ℚ)
    (candidates : List (κ × List α)) :
    (∀ x y, y ∈ dupsGet (computeDuplicates ng τ candidates) x →
        x ∈ dupsGet (computeDuplicates ng τ candidates) y) ∧
    (∀ x y, y ∈ dupsGet (computeDuplicates ng τ candidates) x ↔
      ∃ q ∈ candidates, ∃ p ∈ pairsOf q.2,
        τ ≤ compute_jaccard_similarity (ng p.1) (ng p.2) ∧
          ((x = p.1 ∧ y = p.2) ∨ (x = p.2 ∧ y = p.1))) := by
  unfold computeDuplicates
  suffices H : ∀ (cands : List (κ × List α)) (dups : List (α × Finset α)),
      (∀ x y, y ∈ dupsGet dups x → x ∈ dupsGet dups y) →
      ((∀ x y, y ∈ dupsGet (cands.foldl
          (fun dups bucket =>
            if bucket.2.length < 2 then dups
            else (pairsOf bucket.2).foldl (dupStep ng τ) dups) dups) x →
          x ∈ dupsGet (cands.foldl
            (fun dups bucket =>
              if bucket.2.length < 2 then dups
              else (pairsOf bucket.2).foldl (dupStep ng τ) dups) dups) y) ∧
       (∀ x y, y ∈ dupsGet (cands.foldl
          (fun dups bucket =>
            if bucket.2.length < 2 then dups
            else (pairsOf bucket.2).foldl (dupStep ng τ) dups) dups) x ↔
          (y ∈ dupsGet dups x ∨
            ∃ q ∈ cands, ∃ p ∈ pairsOf q.2,
              τ ≤ compute_jaccard_similarity (ng p.1) (ng p.2) ∧
                ((x = p.1 ∧ y = p.2) ∨ (x = p.2 ∧ y = p.1))))) by
    have h := H candidates [] (by intro x y h; simp [dupsGet] at h)
    refine ⟨h.1, ?_⟩
    intro x y
    rw [h.2 x y]
    simp [dupsGet]
  intro cands
  induction cands with
  | nil =>
    intro dups hsym
    refine ⟨hsym, ?_⟩
    intro x y
    simp
  | cons q rest ih =>
    intro dups hsym
    rw [List.foldl_cons]
    by_cases hlen : q.2.length < 2
    · rw [if_pos hlen]
      obtain ⟨hs, hiff⟩ := ih dups hsym
      refine ⟨hs, ?_⟩
      intro x y
      rw [hiff x y]
      constructor
      · rintro (h | ⟨q₁, hq₁, hrest⟩)
        · exact Or.inl h
        · exact Or.inr ⟨q₁, List.mem_cons_of_mem _ hq₁, hrest⟩
      · rintro (h | ⟨q₁, hq₁, p, hp, hrest⟩)
        · exact Or.inl h
        · rcases List.mem_cons.mp hq₁ with rfl | hq₂
          · rw [pairsOf_short _ hlen] at hp
            cases hp
          · exact Or.inr ⟨q₁, hq₂, p, hp, hrest⟩
    · rw [if_neg hlen]
      obtain ⟨hsym₁, hiff₁⟩ := dupsGet_pairsFold ng τ (pairsOf q.2) dups hsym
      obtain ⟨hs, hiff⟩ := ih _ hsym₁
      refine ⟨hs, ?_⟩
      intro x y
      rw [hiff x y, hiff₁ x y]
      constructor
      · rintro ((h | ⟨p, hp, hrest⟩) | ⟨q₁, hq₁, hrest⟩)
        · exact Or.inl h
        · exact Or.inr ⟨q, List.mem_cons_self .., p, hp, hrest⟩
        · exact Or.inr ⟨q₁, List.mem_cons_of_mem _ hq₁, hrest⟩
      · rintro (h | ⟨q₁, hq₁, p, hp, hrest⟩)
        · exact Or.inl (Or.inl h)
        · rcases List.mem_cons.mp hq₁ with rfl | hq₂
          · exact Or.inl (Or.inr ⟨p, hp, hrest⟩)
          · exact Or.inr ⟨q₁, hq₂, p, hp, hrest⟩

theorem dupRel_symm (candidates : List (κ × List α)) (ng : α → Finset String) (τ : ℚ)
    (x y : α) (h : dupRel candidates ng τ x y) : dupRel candidates ng τ y x := by
  obtain ⟨hne, ⟨q, hq, hx, hy⟩, hτ⟩ := h
  refine ⟨hne.symm, ⟨q, hq, hy, hx⟩, ?_⟩
  rwa [jaccard_comm]

theorem dupRel_irrefl (candidates : List (κ × List α)) (ng : α → Finset String) (τ : ℚ)
    (x : α) : ¬dupRel candidates ng τ x x := fun h => h.1 rfl

theorem computeDuplicates_mem (ng : α → Finset String) (τ : ℚ)
    (candidates : List (κ × List α)) (hnd : ∀ q ∈ candidates, q.2.Nodup) (x y : α) :
    y ∈ dupsGet (computeDuplicates ng τ candidates) x ↔ dupRel candidates ng τ x y := by
  rw [(dupsGet_computeDuplicates ng τ candidates).2 x y]
  unfold dupRel
  constructor
  · rintro ⟨q, hq, p, hp, hτ, (⟨rfl, rfl⟩ | ⟨rfl, rfl⟩)⟩
    · obtain ⟨ha, hb⟩ := pairsOf_mem_both _ _ _ hp
      exact ⟨pairsOf_ne _ (hnd q hq) _ _ hp, ⟨q, hq, ha, hb⟩, hτ⟩
    · obtain ⟨ha, hb⟩ := pairsOf_mem_both _ _ _ hp
      refine ⟨(pairsOf_ne _ (hnd q hq) _ _ hp).symm, ⟨q, hq, hb, ha⟩, ?_⟩
      rwa [jaccard_comm]
  · rintro ⟨hne, ⟨q, hq, hx, hy⟩, hτ⟩
    rcases pairsOf_total q.2 x y hx hy hne with h | h
    · exact ⟨q, hq, (x, y), h, hτ, Or.inl ⟨rfl, rfl⟩⟩
    · refine ⟨q, hq, (y, x), h, ?_, Or.inr ⟨rfl, rfl⟩⟩
      rwa [jaccard_comm]

theorem bfsLoop_spec (eset : Finset α → List α) (dups : List (α × Finset α))
    (heset : ∀ s, (eset s).toFinset = s) (P₀ : Finset α) (R : α → Prop)
    (hstep : ∀ a b, R a → b ∈ dupsGet dups a → R b) :
    ∀ (queue cluster : List α) (processed : Finset α),
      cluster.toFinset ⊆ processed →
      (∀ a, a ∈ processed → a ∉ P₀ → dupsGet dups a ⊆ processed ∪ queue.toFinset) →
      (∀ d ∈ queue, R d) → (∀ d ∈ cluster, R d) →
      ((∀ a, a ∈ (bfsLoop eset dups queue cluster processed).1 ↔
          a ∈ cluster ∨ (a ∈ (bfsLoop eset dups queue cluster processed).2 ∧ a ∉ processed)) ∧
       (∀ a, a ∈ (bfsLoop eset dups queue cluster processed).2 ↔
          a ∈ processed ∨ a ∈ (bfsLoop eset dups queue cluster processed).1) ∧
       (cluster.Nodup → (bfsLoop eset dups queue cluster processed).1.Nodup) ∧
       (∀ a, a ∈ (bfsLoop eset dups queue cluster processed).2 → a ∉ P₀ →
          dupsGet dups a ⊆ (bfsLoop eset dups queue cluster processed).2) ∧
       (∀ d ∈ (bfsLoop eset dups queue cluster processed).1, R d)) := by
  intro queue cluster processed
  induction queue, cluster, processed using bfsLoop.induct eset dups with
  | case1 cluster processed =>
    intro hc hf hq hcr
    rw [bfsLoop]
    refine ⟨?_, ?_, fun h => h, ?_, hcr⟩
    · intro a
      constructor
      · exact Or.inl
      · rintro (h | ⟨h1, h2⟩)
        · exact h
        · exact absurd h1 h2
    · intro a
      constructor
      · exact Or.inl
      · rintro (h | h)
        · exact h
        · exact hc (List.mem_toFinset.mpr h)
    · intro a ha hni
      have h := hf a ha hni
      intro b hb
      have := h hb
      simpa using this
  | case2 next rest cluster processed hmem ih =>
    intro hc hf hq hcr
    rw [bfsLoop, if_pos hmem]
    apply ih hc
    · intro a ha hni b hb
      rcases Finset.mem_union.mp (hf a ha hni hb) with h | h
      · exact Finset.mem_union_left _ h
      · rw [List.toFinset_cons] at h
        rcases Finset.mem_insert.mp h with rfl | h
        · exact Finset.mem_union_left _ hmem
        · exact Finset.mem_union_right _ h
    · intro d hd
      exact hq d (List.mem_cons_of_mem _ hd)
    · exact hcr
  | case3 next rest cluster processed hmem ih =>
    intro hc hf hq hcr
    rw [bfsLoop, if_neg hmem]
    have hRnext : R next := hq next (List.mem_cons_self ..)
    have hc₁ : (cluster ++ [next]).toFinset ⊆ insert next processed := by
      intro a ha
      rw [List.toFinset_append, Finset.mem_union, List.toFinset_cons] at ha
      rcases ha with h | h
      · exact Finset.mem_insert_of_mem (hc h)
      · rcases Finset.mem_insert.mp h with rfl | h
        · exact Finset.mem_insert_self ..
        · simp at h
    have hf₁ : ∀ a, a ∈ insert next processed → a ∉ P₀ →
        dupsGet dups a ⊆ insert next processed ∪
          (rest ++ (eset (dupsGet dups next)).filter
            (fun d => decide (d ∉ insert next processed))).toFinset := by
      intro a ha hni b hb
      rcases Finset.mem_insert.mp ha with rfl | ha₁
      · by_cases hbp : b ∈ insert a processed
        · exact Finset.mem_union_left _ hbp
        · apply Finset.mem_union_right
          rw [List.toFinset_append, Finset.mem_union]
          right
          rw [List.mem_toFinset, List.mem_filter]
          refine ⟨?_, by simpa using hbp⟩
          rw [← List.mem_toFinset, heset]
          exact hb
      · rcases Finset.mem_union.mp (hf a ha₁ hni hb) with h | h
        · exact Finset.mem_union_left _ (Finset.mem_insert_of_mem h)
        · rw [List.toFinset_cons] at h
          rcases Finset.mem_insert.mp h with rfl | h
          · exact Finset.mem_union_left _ (Finset.mem_insert_self ..)
          · apply Finset.mem_union_right
            rw [List.toFinset_append, Finset.mem_union]
            exact Or.inl h
    have hq₁ : ∀ d ∈ rest ++ (eset (dupsGet dups next)).filter
        (fun d => decide (d ∉ insert next processed)), R d := by
      intro d hd
      rcases List.mem_append.mp hd with h | h
      · exact hq d (List.mem_cons_of_mem _ h)
      · have hmem' := List.mem_filter.mp h
        apply hstep next d hRnext
        rw [← List.mem_toFinset, heset] at hmem'
        exact hmem'.1
    have hcr₁ : ∀ d ∈ cluster ++ [next], R d := by
      intro d hd
      rcases List.mem_append.mp hd with h | h
      · exact hcr d h
      · rw [List.mem_singleton] at h
        subst h
        exact hRnext
    obtain ⟨i1, i2, i3, i4, i5⟩ := ih hc₁ hf₁ hq₁ hcr₁
    have hnextC : next ∈ (bfsLoop eset dups
        (rest ++ (eset (dupsGet dups next)).filter
          (fun d => decide (d ∉ insert next processed)))
        (cluster ++ [next]) (insert next processed)).1 :=
      (i1 next).mpr (Or.inl (List.mem_append_right _ (List.mem_singleton.mpr rfl)))
    refine ⟨?_, ?_, ?_, i4, i5⟩
    · intro a
      rw [i1 a]
      constructor
      · rintro (h | ⟨h1, h2⟩)
        · rcases List.mem_append.mp h with h | h
          · exact Or.inl h
          · rw [List.mem_singleton] at h
            subst h
            refine Or.inr ⟨(i2 a).mpr (Or.inl (Finset.mem_insert_self ..)), hmem⟩
        · refine Or.inr ⟨h1, fun hp => h2 (Finset.mem_insert_of_mem hp)⟩
      · rintro (h | ⟨h1, h2⟩)
        · exact Or.inl (List.mem_append_left _ h)
        · by_cases he : a = next
          · subst he
            exact Or.inl (List.mem_append_right _ (List.mem_singleton.mpr rfl))
          · refine Or.inr ⟨h1, ?_⟩
            rw [Finset.mem_insert]
            rintro (h | h)
            · exact he h
            · exact h2 h
    · intro a
      rw [i2 a]
      constructor
      · rintro (h | h)
        · rcases Finset.mem_insert.mp h with rfl | h
          · exact Or.inr hnextC
          · exact Or.inl h
        · exact Or.inr h
      · rintro (h | h)
        · exact Or.inl (Finset.mem_insert_of_mem h)
        · exact Or.inr h
    · intro hnd
      apply i3
      rw [List.nodup_append]
      refine ⟨hnd, List.nodup_singleton _, ?_⟩
      intro a ha hb
      rw [List.mem_singleton] at hb
      subst hb
      exact hmem (hc (List.mem_toFinset.mpr ha))

theorem one_lt_length_of_two_mem (l : List α) (a b : α) (ha : a ∈ l) (hb : b ∈ l)
    (hne : a ≠ b) : 1 < l.length := by
  have hsub : ({a, b} : Finset α) ⊆ l.toFinset := by
    intro x hx
    rcases Finset.mem_insert.mp hx with rfl | hx
    · exact List.mem_toFinset.mpr ha
    · rw [Finset.mem_singleton] at hx
      subst hx
      exact List.mem_toFinset.mpr hb
  have h2 : ({a, b} : Finset α).card = 2 := by
    rw [Finset.card_insert_of_not_mem (by simpa using hne), Finset.card_singleton]
  have h3 := Finset.card_le_card hsub
  have h4 := l.toFinset_card_le
  omega

theorem bfs_component (eset : Finset α → List α) (dups : List (α × Finset α))
    (heset : ∀ s, (eset s).toFinset = s)
    (hsym : ∀ x y, y ∈ dupsGet dups x → x ∈ dupsGet dups y)
    (P₀ : Finset α) (hP₀ : ∀ a ∈ P₀, dupsGet dups a ⊆ P₀)
    (doc : α) (hdoc : doc ∉ P₀) (C : List α) (P : Finset α)
    (hr : bfsLoop eset dups (eset (dupsGet dups doc)) [doc] (insert doc P₀) = (C, P)) :
    (∀ b, b ∈ C ↔ dupReach dups doc b) ∧ C.Nodup ∧
    (∀ a, a ∈ P ↔ a ∈ P₀ ∨ a ∈ C) ∧ (∀ a ∈ P, dupsGet dups a ⊆ P) ∧
    (∀ b ∈ C, b ∉ P₀) := by
  have hspec := bfsLoop_spec eset dups heset P₀ (dupReach dups doc)
    (fun a b ra hb => Relation.ReflTransGen.tail ra hb)
    (eset (dupsGet dups doc)) [doc] (insert doc P₀)
    (by simp)
    (by
      intro a ha hni b hb
      rcases Finset.mem_insert.mp ha with rfl | ha₁
      · apply Finset.mem_union_right
        rw [← heset (dupsGet dups a)] at hb
        exact hb
      · exact absurd ha₁ hni)
    (by
      intro d hd
      apply Relation.ReflTransGen.single
      rw [← List.mem_toFinset, heset] at hd
      exact hd)
    (by
      intro d hd
      rw [List.mem_singleton] at hd
      subst hd
      exact Relation.ReflTransGen.refl)
  rw [hr] at hspec
  obtain ⟨i1, i2, i3, i4, i5⟩ := hspec
  have hdocC : doc ∈ C := (i1 doc).mpr (Or.inl (List.mem_singleton.mpr rfl))
  have hPmem : ∀ a, a ∈ P ↔ a ∈ P₀ ∨ a ∈ C := by
    intro a
    rw [i2 a]
    constructor
    · rintro (h | h)
      · rcases Finset.mem_insert.mp h with rfl | h
        · exact Or.inr hdocC
        · exact Or.inl h
      · exact Or.inr h
    · rintro (h | h)
      · exact Or.inl (Finset.mem_insert_of_mem h)
      · exact Or.inr h
  have hPcl : ∀ a ∈ P, dupsGet dups a ⊆ P := by
    intro a ha
    by_cases hap : a ∈ P₀
    · intro b hb
      exact (hPmem b).mpr (Or.inl (hP₀ a hap hb))
    · exact i4 a ha hap
  have hnotP₀ : ∀ b, dupReach dups doc b → b ∉ P₀ := by
    intro b hb
    induction hb with
    | refl => exact hdoc
    | tail hr₁ hs ih =>
      intro hc
      exact ih (hP₀ _ hc (hsym _ _ hs))
  refine ⟨?_, i3 (List.nodup_singleton _), hPmem, hPcl, fun b hb => hnotP₀ b (i5 b hb)⟩
  intro b
  constructor
  · exact i5 b
  · intro hreach
    have hbP : b ∈ P := by
      clear hr
      induction hreach with
      | refl => exact (hPmem doc).mpr (Or.inr hdocC)
      | tail hr₁ hs ih => exact hPcl _ ih hs
    rcases (hPmem b).mp hbP with h | h
    · exact absurd h (hnotP₀ b hreach)
    · exact h

theorem clustersLoop_spec (eset : Finset α → List α) (dups : List (α × Finset α))
    (heset : ∀ s, (eset s).toFinset = s)
    (hsym : ∀ x y, y ∈ dupsGet dups x → x ∈ dupsGet dups y)
    (hirr : ∀ x, x ∉ dupsGet dups x) :
    ∀ (keys : List α) (processed : Finset α),
      (∀ a ∈ processed, dupsGet dups a ⊆ processed) →
      ((∀ c ∈ clustersLoop eset dups keys processed,
          c.Nodup ∧ 2 ≤ c.length ∧ (∀ a ∈ c, a ∉ processed) ∧
          (∀ a ∈ c, ∀ b, b ∈ c ↔ dupReach dups a b)) ∧
       List.Pairwise (fun c₁ c₂ => ∀ x ∈ c₁, x ∉ c₂)
         (clustersLoop eset dups keys processed) ∧
       (∀ d ∈ keys, d ∉ processed → (∃ e, e ∈ dupsGet dups d) →
          ∃ c ∈ clustersLoop eset dups keys processed, d ∈ c)) := by
  have hsymR : Symmetric (fun u v => v ∈ dupsGet dups u) := fun x y h => hsym x y h
  intro keys
  induction keys with
  | nil =>
    intro processed hcl
    rw [clustersLoop]
    refine ⟨?_, List.Pairwise.nil, ?_⟩
    · intro c hc
      cases hc
    · intro d hd
      cases hd
  | cons doc rest ih =>
    intro processed hcl
    rw [clustersLoop]
    by_cases hdp : doc ∈ processed
    · rw [if_pos hdp]
      obtain ⟨hA, hB, hC⟩ := ih processed hcl
      refine ⟨hA, hB, ?_⟩
      intro d hd hdnp hne
      apply hC d ?_ hdnp hne
      rcases List.mem_cons.mp hd with rfl | h
      · exact absurd hdp hdnp
      · exact h
    · rw [if_neg hdp]
      obtain ⟨hcomp, hnodupC, hPmem, hPcl, hCnotP₀⟩ :=
        bfs_component eset dups heset hsym processed hcl doc hdp
          (bfsLoop eset dups (eset (dupsGet dups doc)) [doc] (insert doc processed)).1
          (bfsLoop eset dups (eset (dupsGet dups doc)) [doc] (insert doc processed)).2
          rfl
      obtain ⟨hA, hB, hCov⟩ := ih _ hPcl
      have hdocC : doc ∈ (bfsLoop eset dups (eset (dupsGet dups doc)) [doc]
          (insert doc processed)).1 := (hcomp doc).mpr Relation.ReflTransGen.refl
      by_cases hlen : 1 <
          (bfsLoop eset dups (eset (dupsGet dups doc)) [doc] (insert doc processed)).1.length
      · rw [if_pos hlen]
        refine ⟨?_, ?_, ?_⟩
        · intro c hc
          rcases List.mem_cons.mp hc with rfl | hcr
          · refine ⟨hnodupC, hlen, hCnotP₀, ?_⟩
            intro a ha b
            rw [hcomp b]
            have hda : dupReach dups doc a := (hcomp a).mp ha
            constructor
            · intro hdb
              exact Relation.ReflTransGen.trans
                ((Relation.ReflTransGen.symmetric hsymR) hda) hdb
            · intro hab
              exact hda.trans hab
          · obtain ⟨n1, n2, n3, n4⟩ := hA c hcr
            refine ⟨n1, n2, ?_, n4⟩
            intro a ha hap
            exact n3 a ha ((hPmem a).mpr (Or.inl hap))
        · rw [List.pairwise_cons]
          refine ⟨?_, hB⟩
          intro c₂ hc₂ x hx hxc₂
          exact (hA c₂ hc₂).2.2.1 x hxc₂ ((hPmem x).mpr (Or.inr hx))
        · intro d hd hdnp hne
          rcases List.mem_cons.mp hd with rfl | hdr
          · exact ⟨_, List.mem_cons_self .., hdocC⟩
          · by_cases hdC : d ∈ (bfsLoop eset dups (eset (dupsGet dups doc)) [doc]
                (insert doc processed)).1
            · exact ⟨_, List.mem_cons_self .., hdC⟩
            · have hdP : d ∉ (bfsLoop eset dups (eset (dupsGet dups doc)) [doc]
                  (insert doc processed)).2 := by
                intro hdP
                rcases (hPmem d).mp hdP with h | h
                · exact hdnp h
                · exact hdC h
              obtain ⟨c, hcm, hdc⟩ := hCov d hdr hdP hne
              exact ⟨c, List.mem_cons_of_mem _ hcm, hdc⟩
      · rw [if_neg hlen]
        have hbig : ∀ d, d ∈ (bfsLoop eset dups (eset (dupsGet dups doc)) [doc]
            (insert doc processed)).1 → (∃ e, e ∈ dupsGet dups d) → False := by
          rintro d hdC ⟨e, he⟩
          have heC : e ∈ (bfsLoop eset dups (eset (dupsGet dups doc)) [doc]
              (insert doc processed)).1 :=
            (hcomp e).mpr (((hcomp d).mp hdC).tail he)
          have hne₁ : d ≠ e := fun h => hirr d (h ▸ he)
          exact hlen (one_lt_length_of_two_mem _ d e hdC heC hne₁)
        refine ⟨?_, hB, ?_⟩
        · intro c hc
          obtain ⟨n1, n2, n3, n4⟩ := hA c hc
          refine ⟨n1, n2, ?_, n4⟩
          intro a ha hap
          exact n3 a ha ((hPmem a).mpr (Or.inl hap))
        · intro d hd hdnp hne
          rcases List.mem_cons.mp hd with rfl | hdr
          · exact absurd hne (fun h => hbig d hdocC h)
          · by_cases hdC : d ∈ (bfsLoop eset dups (eset (dupsGet dups doc)) [doc]
                (insert doc processed)).1
            · exact absurd hne (fun h => hbig d hdC h)
            · have hdP : d ∉ (bfsLoop eset dups (eset (dupsGet dups doc)) [doc]
                  (insert doc processed)).2 := by
                intro hdP
                rcases (hPmem d).mp hdP with h | h
                · exact hdnp h
                · exact hdC h
              exact hCov d hdr hdP hne

theorem fdc_reach_iff (ng : α → Finset String) (τ : ℚ) (cands : List (κ × List α))
    (hnd : ∀ q ∈ cands, q.2.Nodup) (a b : α) :
    dupReach (computeDuplicates ng τ cands) a b ↔
      Relation.ReflTransGen (dupRel cands ng τ) a b := by
  constructor
  · intro h
    refine Relation.ReflTransGen.mono ?_ h
    intro x y hxy
    exact (computeDuplicates_mem ng τ cands hnd x y).mp hxy
  · intro h
    refine Relation.ReflTransGen.mono ?_ h
    intro x y hxy
    exact (computeDuplicates_mem ng τ cands hnd x y).mpr hxy

theorem find_duplicate_clusters_spec (eset : Finset α → List α) (cands : List (κ × List α))
    (keys : List α) (ng : α → Finset String) (τ : ℚ)
    (heset : ∀ s, (eset s).toFinset = s) (hnd : ∀ q ∈ cands, q.2.Nodup) :
    (∀ c ∈ find_duplicate_clusters eset cands keys ng τ,
        c.Nodup ∧ 2 ≤ c.length ∧
        (∀ a ∈ c, ∀ b, b ∈ c ↔ Relation.ReflTransGen (dupRel cands ng τ) a b)) ∧
    List.Pairwise (fun c₁ c₂ => ∀ x ∈ c₁, x ∉ c₂)
      (find_duplicate_clusters eset cands keys ng τ) ∧
    (∀ d ∈ keys, (∃ e, dupRel cands ng τ d e) →
        ∃ c ∈ find_duplicate_clusters eset cands keys ng τ, d ∈ c) := by
  have hsym := (dupsGet_computeDuplicates ng τ cands).1
  have hirr : ∀ x, x ∉ dupsGet (computeDuplicates ng τ cands) x := by
    intro x hx
    exact dupRel_irrefl cands ng τ x ((computeDuplicates_mem ng τ cands hnd x x).mp hx)
  obtain ⟨hA, hB, hC⟩ := clustersLoop_spec eset _ heset hsym hirr keys ∅ (by simp)
  refine ⟨?_, hB, ?_⟩
  · intro c hc
    obtain ⟨n1, n2, n3, n4⟩ := hA c hc
    refine ⟨n1, n2, ?_⟩
    intro a ha b
    rw [n4 a ha b, fdc_reach_iff ng τ cands hnd]
  · intro d hd hne
    apply hC d hd (by simp)
    obtain ⟨e, he⟩ := hne
    exact ⟨e, (computeDuplicates_mem ng τ cands hnd d e).mpr he⟩

theorem exists_ne_mem (l : List α) (hnd : l.Nodup) (hlen : 2 ≤ l.length) (a : α) :
    ∃ b ∈ l, b ≠ a := by
  match l with
  | [] => simp at hlen
  | [x] => simp at hlen
  | x :: y :: t =>
    rw [List.nodup_cons] at hnd
    have hxy : x ≠ y := fun e => hnd.1 (e ▸ List.mem_cons_self ..)
    by_cases hxa : x = a
    · subst hxa
      exact ⟨y, List.mem_cons_of_mem _ (List.mem_cons_self ..), fun e => hxy e.symm⟩
    · exact ⟨x, List.mem_cons_self .., hxa⟩

theorem find_duplicate_clusters_subset_keys (eset : Finset α → List α)
    (cands : List (κ × List α)) (keys : List α) (ng : α → Finset String) (τ : ℚ)
    (heset : ∀ s, (eset s).toFinset = s) (hnd : ∀ q ∈ cands, q.2.Nodup)
    (hsub : ∀ q ∈ cands, ∀ d ∈ q.2, d ∈ keys) :
    ∀ c ∈ find_duplicate_clusters eset cands keys ng τ, ∀ a ∈ c, a ∈ keys := by
  obtain ⟨hA, -, -⟩ := find_duplicate_clusters_spec eset cands keys ng τ heset hnd
  intro c hc a ha
  obtain ⟨n1, n2, n4⟩ := hA c hc
  obtain ⟨b, hb, hba⟩ := exists_ne_mem c n1 n2 a
  have hreach : Relation.ReflTransGen (dupRel cands ng τ) b a := (n4 b hb a).mp ha
  rcases Relation.ReflTransGen.cases_tail hreach with h | ⟨e, -, he⟩
  · exact absurd h.symm hba
  · obtain ⟨-, ⟨q, hq, -, hain⟩, -⟩ := he
    exact hsub q hq a hain

theorem fdc_partition_subset (eset₁ eset₂ : Finset α → List α) (cands : List (κ × List α))
    (keys₁ keys₂ : List α) (ng : α → Finset String) (τ : ℚ)
    (he₁ : ∀ s, (eset₁ s).toFinset = s) (he₂ : ∀ s, (eset₂ s).toFinset = s)
    (hnd : ∀ q ∈ cands, q.2.Nodup)
    (hsub₁ : ∀ q ∈ cands, ∀ d ∈ q.2, d ∈ keys₁)
    (hperm : ∀ a, a ∈ keys₁ ↔ a ∈ keys₂) :
    ∀ S ∈ ((find_duplicate_clusters eset₁ cands keys₁ ng τ).map List.toFinset).toFinset,
      S ∈ ((find_duplicate_clusters eset₂ cands keys₂ ng τ).map List.toFinset).toFinset := by
  intro S hS
  rw [List.mem_toFinset, List.mem_map] at hS
  obtain ⟨c, hc, rfl⟩ := hS
  obtain ⟨spec₁A, -, -⟩ := find_duplicate_clusters_spec eset₁ cands keys₁ ng τ he₁ hnd
  obtain ⟨spec₂A, -, spec₂C⟩ := find_duplicate_clusters_spec eset₂ cands keys₂ ng τ he₂ hnd
  obtain ⟨n1, n2, n4⟩ := spec₁A c hc
  have hcne : 0 < c.length := by omega
  obtain ⟨a, ha⟩ := List.exists_mem_of_length_pos hcne
  obtain ⟨b, hb, hba⟩ := exists_ne_mem c n1 n2 a
  have hreach : Relation.ReflTransGen (dupRel cands ng τ) a b := (n4 a ha b).mp hb
  have hedge : ∃ e, dupRel cands ng τ a e := by
    rcases Relation.ReflTransGen.cases_head hreach with h | ⟨e, he, -⟩
    · exact absurd h.symm hba
    · exact ⟨e, he⟩
  have hak : a ∈ keys₂ := (hperm a).mp
    (find_duplicate_clusters_subset_keys eset₁ cands keys₁ ng τ he₁ hnd hsub₁ c hc a ha)
  obtain ⟨c₂, hc₂, hac₂⟩ := spec₂C a hak hedge
  rw [List.mem_toFinset, List.mem_map]
  refine ⟨c₂, hc₂, ?_⟩
  apply Finset.ext
  intro x
  rw [List.mem_toFinset, List.mem_toFinset]
  obtain ⟨m1, m2, m4⟩ := spec₂A c₂ hc₂
  rw [m4 a hac₂ x, n4 a ha x]

/-- C2: `find_duplicate_clusters` returns exactly the connected components,
restricted to documents with at least one confirmed edge, of the undirected
graph of confirmed duplicate edges (`dupRel`: distinct documents sharing a
bucket whose n-gram Jaccard similarity meets the threshold): every cluster has
at least two (distinct) members, clusters are pairwise disjoint, membership in
a cluster is exactly reachability from any of its members (so confirmed
transitive chains always land in one cluster), every non-isolated document of
the key list lands in some cluster, and the resulting partition is independent
of the traversal order (of both the set enumeration and the key order). -/
theorem find_duplicate_clusters_connected_components (eset : Finset α → List α)
    (cands : List (κ × List α)) (keys : List α) (ng : α → Finset String) (τ : ℚ)
    (heset : ∀ s, (eset s).toFinset = s) (hnd : ∀ q ∈ cands, q.2.Nodup)
    (hsub : ∀ q ∈ cands, ∀ d ∈ q.2, d ∈ keys) :
    (∀ c ∈ find_duplicate_clusters eset cands keys ng τ,
        c.Nodup ∧ 2 ≤ c.length ∧
        (∀ a ∈ c, ∀ b, b ∈ c ↔ Relation.ReflTransGen (dupRel cands ng τ) a b)) ∧
    List.Pairwise (fun c₁ c₂ => ∀ x ∈ c₁, x ∉ c₂)
      (find_duplicate_clusters eset cands keys ng τ) ∧
    (∀ d ∈ keys, (∃ e, dupRel cands ng τ d e) →
        ∃ c ∈ find_duplicate_clusters eset cands keys ng τ, d ∈ c) ∧
    (∀ (eset₂ : Finset α → List α) (keys₂ : List α),
        (∀ s, (eset₂ s).toFinset = s) → (∀ a, a ∈ keys₂ ↔ a ∈ keys) →
        ((find_duplicate_clusters eset₂ cands keys₂ ng τ).map List.toFinset).toFinset =
          ((find_duplicate_clusters eset cands keys ng τ).map List.toFinset).toFinset) := by
  obtain ⟨hA, hB, hC⟩ := find_duplicate_clusters_spec eset cands keys ng τ heset hnd
  refine ⟨hA, hB, hC, ?_⟩
  intro eset₂ keys₂ he₂ hperm
  have hsub₂ : ∀ q ∈ cands, ∀ d ∈ q.2, d ∈ keys₂ :=
    fun q hq d hd => (hperm d).mpr (hsub q hq d hd)
  apply Finset.Subset.antisymm
  · intro S hS
    exact fdc_partition_subset eset₂ eset cands keys₂ keys ng τ he₂ heset hnd hsub₂
      hperm S hS
  · intro S hS
    exact fdc_partition_subset eset eset₂ cands keys keys₂ ng τ heset he₂ hnd hsub
      (fun a => (hperm a).symm) S hS

theorem find_duplicate_clusters_connected_components_witness :
    ((find_duplicate_clusters (fun s : Finset ℕ => (s.sort (· ≤ ·)).reverse)
        [((0 : ℕ), [1, 2]), (1, [2, 3])] [3, 2, 1] (fun _ => {"a"}) (1 / 2)).map
        List.toFinset).toFinset =
      ((find_duplicate_clusters (fun s : Finset ℕ => s.sort (· ≤ ·))
        [((0 : ℕ), [1, 2]), (1, [2, 3])] [1, 2, 3] (fun _ => {"a"}) (1 / 2)).map
        List.toFinset).toFinset :=
  (find_duplicate_clusters_connected_components (fun s : Finset ℕ => s.sort (· ≤ ·))
      [((0 : ℕ), [1, 2]), (1, [2, 3])] [1, 2, 3] (fun _ => {"a"}) (1 / 2)
      (fun s => Finset.sort_toFinset _ s) (by decide) (by decide)).2.2.2
    (fun s => (s.sort (· ≤ ·)).reverse) [3, 2, 1]
    (fun s => by rw [List.toFinset_reverse]; exact Finset.sort_toFinset _ s)
    (by intro a; simp [List.mem_cons]; tauto)

theorem bucketsGet_of_mem (bks : List (κ × List α)) (hnd : (bks.map Prod.fst).Nodup)
    (p : κ × List α) (hp : p ∈ bks) : bucketsGet bks p.1 = p.2 := by
  induction bks with
  | nil => cases hp
  | cons q rest ih =>
    obtain ⟨k₁, ds⟩ := q
    rw [List.map_cons, List.nodup_cons] at hnd
    rcases List.mem_cons.mp hp with h | h
    · subst h
      simp [bucketsGet]
    · have hk : p.1 ≠ k₁ := by
        intro e
        apply hnd.1
        rw [← e]
        exact List.mem_map.mpr ⟨p, h, rfl⟩
      simp only [bucketsGet, if_neg hk]
      exact ih hnd.2 h

theorem bucketsGet_apply_lsh_nodup (sigs : List (α × List β)) (nb H : ℕ)
    (hnd : (sigs.map Prod.fst).Nodup) (hlen : ∀ p ∈ sigs, p.2.length = H)
    (k : ℕ × List β) : (bucketsGet (apply_lsh sigs nb) k).Nodup := by
  rw [List.nodup_iff_count_le_one]
  intro d
  rw [count_bucketsGet_apply_lsh sigs nb H hlen]
  have h1 : sigs.countP
      (fun p => decide (p.1 = d ∧ k.1 < nb ∧ k.2 = bandSlice p.2 (H / nb) k.1)) ≤
      sigs.countP (fun p => decide (p.1 = d)) := by
    apply List.countP_mono_left
    intro p hp hc
    simp only [decide_eq_true_eq] at hc ⊢
    exact hc.1
  have h2 : sigs.countP (fun p => decide (p.1 = d)) = (sigs.map Prod.fst).count d := by
    rw [List.count_eq_countP, List.countP_map]
    apply List.countP_congr
    intro p hp
    simp [Function.comp, beq_iff_eq]
  have h3 := List.nodup_iff_count_le_one.mp hnd d
  omega

theorem dictOf_fold_stable (entries : List (α × β)) (f : α → β) (a : α)
    (h : a ∉ entries.map Prod.fst) :
    (entries.foldl (fun f p => fun x => if x = p.1 then p.2 else f x) f) a = f a := by
  induction entries generalizing f with
  | nil => rfl
  | cons p rest ih =>
    rw [List.map_cons, List.mem_cons] at h
    push_neg at h
    rw [List.foldl_cons, ih _ h.2, if_neg h.1]

theorem dictOf_mem (entries : List (α × β)) (d₀ : β) (hnd : (entries.map Prod.fst).Nodup)
    (a : α) (b : β) (h : (a, b) ∈ entries) : dictOf entries d₀ a = b := by
  unfold dictOf
  suffices H : ∀ (f : α → β), (a, b) ∈ entries → (entries.map Prod.fst).Nodup →
      (entries.foldl (fun f p => fun x => if x = p.1 then p.2 else f x) f) a = b by
    exact H _ h hnd
  clear h hnd
  induction entries with
  | nil =>
    intro f h
    cases h
  | cons p rest ih =>
    intro f h hnd₁
    rw [List.map_cons, List.nodup_cons] at hnd₁
    rw [List.foldl_cons]
    rcases List.mem_cons.mp h with he | hm
    · have hp1 : p.1 = a := (congrArg Prod.fst he).symm
      have hnot : a ∉ rest.map Prod.fst := by
        rw [← hp1]
        exact hnd₁.1
      rw [dictOf_fold_stable rest _ a hnot, if_pos hp1.symm]
      exact (congrArg Prod.snd he).symm
    · exact ih _ hm hnd₁.2

theorem outputFS_fold_stable (writes : List (String × β)) (f : String → Option β) (n : String)
    (h : ∀ p ∈ writes, p.1 ≠ n) :
    (writes.foldl (fun fs w => fun nm => if nm = w.1 then some w.2 else fs nm) f) n = f n := by
  induction writes generalizing f with
  | nil => rfl
  | cons w rest ih =>
    rw [List.foldl_cons, ih _ (fun p hp => h p (List.mem_cons_of_mem _ hp)),
      if_neg (fun e => h w (List.mem_cons_self ..) e.symm)]

theorem outputFS_none (writes : List (String × β)) (n : String)
    (h : ∀ p ∈ writes, p.1 ≠ n) : outputFS writes n = none :=
  outputFS_fold_stable writes _ n h

theorem outputFS_nodup_mem (writes : List (String × β)) (hnd : (writes.map Prod.fst).Nodup)
    (n : String) (v : β) (hmem : (n, v) ∈ writes) : outputFS writes n = some v := by
  unfold outputFS
  suffices H : ∀ (f : String → Option β), (n, v) ∈ writes → (writes.map Prod.fst).Nodup →
      (writes.foldl (fun fs w => fun nm => if nm = w.1 then some w.2 else fs nm) f) n =
        some v by
    exact H _ hmem hnd
  clear hmem hnd
  induction writes with
  | nil =>
    intro f h
    cases h
  | cons w rest ih =>
    intro f h hnd₁
    rw [List.map_cons, List.nodup_cons] at hnd₁
    rw [List.foldl_cons]
    rcases List.mem_cons.mp h with he | hm
    · have hp1 : w.1 = n := (congrArg Prod.fst he).symm
      have hnot : ∀ p ∈ rest, p.1 ≠ n := by
        intro p hp e
        apply hnd₁.1
        rw [hp1, ← e]
        exact List.mem_map.mpr ⟨p, hp, rfl⟩
      rw [outputFS_fold_stable rest _ n hnot, if_pos hp1.symm]
      exact congrArg some (congrArg Prod.snd he).symm
    · exact ih _ hm hnd₁.2

theorem mem_docs_to_remove (pick : List α → α) (clusters : List (List α)) (d : α) :
    d ∈ docs_to_remove pick clusters ↔ ∃ c ∈ clusters, d ∈ c ∧ d ≠ pick c := by
  unfold docs_to_remove
  have hcluster : ∀ (cluster : List α) (pv : α) (s : Finset α),
      d ∈ cluster.foldl (fun s₁ doc => if doc ≠ pv then insert doc s₁ else s₁) s ↔
        d ∈ s ∨ (d ∈ cluster ∧ d ≠ pv) := by
    intro cluster pv
    induction cluster with
    | nil =>
      intro s
      simp
    | cons x t ih =>
      intro s
      rw [List.foldl_cons]
      by_cases hx : x ≠ pv
      · rw [if_pos hx, ih]
        constructor
        · rintro (h | h)
          · rcases Finset.mem_insert.mp h with rfl | h₁
            · exact Or.inr ⟨List.mem_cons_self .., hx⟩
            · exact Or.inl h₁
          · exact Or.inr ⟨List.mem_cons_of_mem _ h.1, h.2⟩
        · rintro (h | ⟨hm, hne⟩)
          · exact Or.inl (Finset.mem_insert_of_mem h)
          · rcases List.mem_cons.mp hm with rfl | hm₁
            · exact Or.inl (Finset.mem_insert_self ..)
            · exact Or.inr ⟨hm₁, hne⟩
      · rw [if_neg hx, ih]
        push_neg at hx
        subst hx
        constructor
        · rintro (h | h)
          · exact Or.inl h
          · exact Or.inr ⟨List.mem_cons_of_mem _ h.1, h.2⟩
        · rintro (h | ⟨hm, hne⟩)
          · exact Or.inl h
          · rcases List.mem_cons.mp hm with rfl | hm₁
            · exact absurd rfl hne
            · exact Or.inr ⟨hm₁, hne⟩
  suffices H : ∀ (cls : List (List α)) (s : Finset α),
      d ∈ cls.foldl
        (fun s cluster =>
          cluster.foldl (fun s₁ doc => if doc ≠ pick cluster then insert doc s₁ else s₁) s)
        s ↔ d ∈ s ∨ ∃ c ∈ cls, d ∈ c ∧ d ≠ pick c by
    rw [H clusters ∅]
    simp
  intro cls
  induction cls with
  | nil =>
    intro s
    simp
  | cons c rest ih =>
    intro s
    rw [List.foldl_cons, ih, hcluster c (pick c) s]
    constructor
    · rintro ((h | h) | ⟨c₁, hc₁, h₁⟩)
      · exact Or.inl h
      · exact Or.inr ⟨c, List.mem_cons_self .., h⟩
      · exact Or.inr ⟨c₁, List.mem_cons_of_mem _ hc₁, h₁⟩
    · rintro (h | ⟨c₁, hc₁, h₁⟩)
      · exact Or.inl (Or.inl h)
      · rcases List.mem_cons.mp hc₁ with rfl | hc₂
        · exact Or.inl (Or.inr h₁)
        · exact Or.inr ⟨c₁, hc₂, h₁⟩

theorem filterMap_if (l : List (α × String)) (r : Finset α)
    (g : α × String → String × String) :
    l.filterMap (fun pt => if pt.1 ∈ r then none else some (g pt)) =
      (l.filter (fun pt => decide (pt.1 ∉ r))).map g := by
  induction l with
  | nil => rfl
  | cons p t ih =>
    rw [List.filterMap_cons, List.filter_cons]
    by_cases hp : p.1 ∈ r
    · simp [hp, ih]
    · simp [hp, ih]

theorem minhash_doc_entries_keys (normalize : String → String)
    (mmh3hash : String → Int → Int) (enum : Finset String → List String)
    (input_files : List (α × String)) (num_hashes ngrams_n : ℕ) :
    (minhash_doc_entries normalize mmh3hash enum input_files num_hashes ngrams_n).map
      Prod.fst = input_files.map Prod.fst := by
  unfold minhash_doc_entries
  rw [List.map_map]
  apply List.map_congr_left
  intro pt _
  rfl

theorem minhash_signatures_keys (normalize : String → String)
    (mmh3hash : String → Int → Int) (enum : Finset String → List String)
    (input_files : List (α × String)) (num_hashes ngrams_n : ℕ) :
    (minhash_signatures normalize mmh3hash enum input_files num_hashes ngrams_n).map
      Prod.fst = input_files.map Prod.fst := by
  unfold minhash_signatures
  rw [List.map_map, ← minhash_doc_entries_keys normalize mmh3hash enum input_files
    num_hashes ngrams_n]
  apply List.map_congr_left
  intro e _
  rfl

theorem minhash_signatures_length (normalize : String → String)
    (mmh3hash : String → Int → Int) (enum : Finset String → List String)
    (input_files : List (α × String)) (num_hashes ngrams_n : ℕ) :
    ∀ p ∈ minhash_signatures normalize mmh3hash enum input_files num_hashes ngrams_n,
      p.2.length = num_hashes := by
  intro p hp
  unfold minhash_signatures at hp
  obtain ⟨e, he, rfl⟩ := List.mem_map.mp hp
  unfold minhash_doc_entries at he
  obtain ⟨pt, _, rfl⟩ := List.mem_map.mp he
  exact compute_minhash_signature_length mmh3hash _ num_hashes 42

theorem minhash_candidates_facts (normalize : String → String)
    (mmh3hash : String → Int → Int) (enum : Finset String → List String)
    (input_files : List (α × String)) (num_hashes num_bands ngrams_n : ℕ)
    (hkeys : (input_files.map Prod.fst).Nodup) :
    (∀ q ∈ minhash_candidates normalize mmh3hash enum input_files num_hashes num_bands
        ngrams_n, q.2.Nodup) ∧
    (∀ q ∈ minhash_candidates normalize mmh3hash enum input_files num_hashes num_bands
        ngrams_n, ∀ d ∈ q.2, d ∈ input_files.map Prod.fst) := by
  have hsigkeys := minhash_signatures_keys normalize mmh3hash enum input_files
    num_hashes ngrams_n
  have hnd₁ : ((minhash_signatures normalize mmh3hash enum input_files num_hashes
      ngrams_n).map Prod.fst).Nodup := by
    rw [hsigkeys]
    exact hkeys
  have hlen := minhash_signatures_length normalize mmh3hash enum input_files
    num_hashes ngrams_n
  have happkeys := apply_lsh_keys_nodup
    (minhash_signatures normalize mmh3hash enum input_files num_hashes ngrams_n) num_bands
  constructor
  · intro q hq
    have hq₁ := List.mem_of_mem_filter hq
    have heq := bucketsGet_of_mem _ happkeys q hq₁
    rw [← heq]
    exact bucketsGet_apply_lsh_nodup _ num_bands num_hashes hnd₁ hlen q.1
  · intro q hq d hd
    have hq₁ := List.mem_of_mem_filter hq
    have heq := bucketsGet_of_mem _ happkeys q hq₁
    rw [← heq] at hd
    rw [mem_bucketsGet_apply_lsh _ num_bands num_hashes hlen] at hd
    obtain ⟨sig, hsig, -, -⟩ := hd
    rw [← hsigkeys]
    exact List.mem_map.mpr ⟨(d, sig), hsig, rfl⟩

theorem minhash_clusters_eq (normalize : String → String) (mmh3hash : String → Int → Int)
    (enum : Finset String → List String) (eset : Finset α → List α)
    (input_files : List (α × String)) (num_hashes num_bands ngrams_n : ℕ) (τ : ℚ) :
    minhash_clusters normalize mmh3hash enum eset input_files num_hashes num_bands
      ngrams_n τ =
    find_duplicate_clusters eset
      (minhash_candidates normalize mmh3hash enum input_files num_hashes num_bands ngrams_n)
      ((minhash_doc_entries normalize mmh3hash enum input_files num_hashes ngrams_n).map
        Prod.fst)
      (dictOf ((minhash_doc_entries normalize mmh3hash enum input_files num_hashes
        ngrams_n).map (fun e => (e.1, e.2.2.1))) ∅)
      τ := rfl

theorem minhash_dedup_writes_eq (name : α → String) (normalize : String → String)
    (mmh3hash : String → Int → Int) (enum : Finset String → List String)
    (eset : Finset α → List α) (pick : List α → α) (input_files : List (α × String))
    (num_hashes num_bands ngrams_n : ℕ) (τ : ℚ) :
    minhash_dedup_writes name normalize mmh3hash enum eset pick input_files num_hashes
      num_bands ngrams_n τ =
    input_files.filterMap (fun pt =>
      if pt.1 ∈ docs_to_remove pick (minhash_clusters normalize mmh3hash enum eset
          input_files num_hashes num_bands ngrams_n τ) then none
      else some (name pt.1, dictOf input_files "" pt.1)) := rfl

/-- C3: after a fuzzy-dedup run, every member of every duplicate cluster is an
input document and each cluster keeps exactly one member; a kept document's
output file holds its original (non-normalized) text; a removed document's
file is absent; and a document belonging to no cluster is never removed —
hence is present unchanged.  Output filenames are assumed collision-free on
this corpus (C10 exhibits what happens otherwise). -/
theorem minhash_dedup_survivor_invariant (name : α → String) (normalize : String → String)
    (mmh3hash : String → Int → Int) (enum : Finset String → List String)
    (eset : Finset α → List α) (pick : List α → α) (input_files : List (α × String))
    (num_hashes num_bands ngrams_n : ℕ) (τ : ℚ)
    (heset : ∀ s, (eset s).toFinset = s)
    (hpick : ∀ l : List α, l ≠ [] → pick l ∈ l)
    (hkeys : (input_files.map Prod.fst).Nodup)
    (hname : ∀ p ∈ input_files, ∀ q ∈ input_files, name p.1 = name q.1 → p.1 = q.1) :
    (∀ c ∈ minhash_clusters normalize mmh3hash enum eset input_files num_hashes num_bands
        ngrams_n τ, ∀ d ∈ c, d ∈ input_files.map Prod.fst) ∧
    (∀ c ∈ minhash_clusters normalize mmh3hash enum eset input_files num_hashes num_bands
        ngrams_n τ,
      (c.filter (fun d => decide (d ∉ docs_to_remove pick (minhash_clusters normalize
        mmh3hash enum eset input_files num_hashes num_bands ngrams_n τ)))).length = 1) ∧
    (∀ d text, (d, text) ∈ input_files →
      d ∉ docs_to_remove pick (minhash_clusters normalize mmh3hash enum eset input_files
        num_hashes num_bands ngrams_n τ) →
      minhash_deduplication name normalize mmh3hash enum eset pick input_files num_hashes
        num_bands ngrams_n τ (name d) = some text) ∧
    (∀ d text, (d, text) ∈ input_files →
      d ∈ docs_to_remove pick (minhash_clusters normalize mmh3hash enum eset input_files
        num_hashes num_bands ngrams_n τ) →
      minhash_deduplication name normalize mmh3hash enum eset pick input_files num_hashes
        num_bands ngrams_n τ (name d) = none) ∧
    (∀ d, (∀ c ∈ minhash_clusters normalize mmh3hash enum eset input_files num_hashes
        num_bands ngrams_n τ, d ∉ c) →
      d ∉ docs_to_remove pick (minhash_clusters normalize mmh3hash enum eset input_files
        num_hashes num_bands ngrams_n τ)) := by
  obtain ⟨hndC, hsubC⟩ := minhash_candidates_facts normalize mmh3hash enum input_files
    num_hashes num_bands ngrams_n hkeys
  have hkeq := minhash_doc_entries_keys normalize mmh3hash enum input_files num_hashes
    ngrams_n
  obtain ⟨hA, hB, -⟩ := find_duplicate_clusters_spec eset
    (minhash_candidates normalize mmh3hash enum input_files num_hashes num_bands ngrams_n)
    ((minhash_doc_entries normalize mmh3hash enum input_files num_hashes ngrams_n).map
      Prod.fst)
    (dictOf ((minhash_doc_entries normalize mmh3hash enum input_files num_hashes
      ngrams_n).map (fun e => (e.1, e.2.2.1))) ∅) τ heset hndC
  have hsubK := find_duplicate_clusters_subset_keys eset
    (minhash_candidates normalize mmh3hash enum input_files num_hashes num_bands ngrams_n)
    ((minhash_doc_entries normalize mmh3hash enum input_files num_hashes ngrams_n).map
      Prod.fst)
    (dictOf ((minhash_doc_entries normalize mmh3hash enum input_files num_hashes
      ngrams_n).map (fun e => (e.1, e.2.2.1))) ∅) τ heset hndC
    (fun q hq d hd => by rw [hkeq]; exact hsubC q hq d hd)
  have hmembers : ∀ c ∈ minhash_clusters normalize mmh3hash enum eset input_files
      num_hashes num_bands ngrams_n τ, ∀ d ∈ c, d ∈ input_files.map Prod.fst := by
    intro c hc d hd
    have h := hsubK c hc d hd
    rwa [hkeq] at h
  have hremiff : ∀ c ∈ minhash_clusters normalize mmh3hash enum eset input_files
      num_hashes num_bands ngrams_n τ, ∀ d ∈ c,
      (d ∈ docs_to_remove pick (minhash_clusters normalize mmh3hash enum eset input_files
        num_hashes num_bands ngrams_n τ) ↔ d ≠ pick c) := by
    intro c hc d hd
    rw [mem_docs_to_remove]
    constructor
    · rintro ⟨c₁, hc₁, hdc₁, hne⟩
      have hcc : c₁ = c := by
        by_contra hne₂
        have hsymR : Symmetric (fun u v : List α => ∀ x ∈ u, x ∉ v) :=
          fun u v h x hxv hxu => h x hxu hxv
        exact (List.Pairwise.forall hsymR hB) hc₁ hc hne₂ d hdc₁ hd
      rw [← hcc]
      exact hne
    · intro hne
      exact ⟨c, hc, hd, hne⟩
  have hcount : ∀ c ∈ minhash_clusters normalize mmh3hash enum eset input_files
      num_hashes num_bands ngrams_n τ,
      (c.filter (fun d => decide (d ∉ docs_to_remove pick (minhash_clusters normalize
        mmh3hash enum eset input_files num_hashes num_bands ngrams_n τ)))).length = 1 := by
    intro c hc
    obtain ⟨n1, n2, -⟩ := hA c hc
    have hcne : c ≠ [] := by
      intro h
      rw [h] at n2
      simp at n2
    have hpc := hpick c hcne
    have hfe : c.filter (fun d => decide (d ∉ docs_to_remove pick (minhash_clusters
        normalize mmh3hash enum eset input_files num_hashes num_bands ngrams_n τ))) =
        c.filter (fun d => decide (d = pick c)) := by
      apply List.filter_congr
      intro d hd
      rw [decide_eq_decide]
      rw [hremiff c hc d hd]
      exact not_not
    rw [hfe, ← List.countP_eq_length_filter]
    have hcp : c.countP (fun d => decide (d = pick c)) = c.count (pick c) := by
      rw [List.count_eq_countP]
      apply List.countP_congr
      intro d hd
      simp [beq_iff_eq]
    rw [hcp]
    exact List.count_eq_one_of_mem n1 hpc
  have hwriteseq : minhash_dedup_writes name normalize mmh3hash enum eset pick input_files
      num_hashes num_bands ngrams_n τ =
      (input_files.filter (fun pt => decide (pt.1 ∉ docs_to_remove pick (minhash_clusters
        normalize mmh3hash enum eset input_files num_hashes num_bands ngrams_n τ)))).map
        (fun pt => (name pt.1, dictOf input_files "" pt.1)) := by
    rw [minhash_dedup_writes_eq, filterMap_if]
  have hinnd : input_files.Nodup := List.Nodup.of_map Prod.fst hkeys
  have hfnd : (input_files.filter (fun pt => decide (pt.1 ∉ docs_to_remove pick
      (minhash_clusters normalize mmh3hash enum eset input_files num_hashes num_bands
        ngrams_n τ)))).Nodup := List.Nodup.filter _ hinnd
  have hwnames : ((minhash_dedup_writes name normalize mmh3hash enum eset pick input_files
      num_hashes num_bands ngrams_n τ).map Prod.fst).Nodup := by
    rw [hwriteseq, List.map_map]
    apply List.Nodup.map_on ?_ hfnd
    intro x hx y hy hxy
    have hx₁ := List.mem_of_mem_filter hx
    have hy₁ := List.mem_of_mem_filter hy
    have hone : x.1 = y.1 := hname x hx₁ y hy₁ hxy
    apply Prod.ext hone
    have hy₂ : (x.1, y.2) ∈ input_files := by
      rw [hone, Prod.mk.eta]
      exact hy₁
    exact nodup_keys_entry_unique input_files hkeys x.1 x.2 y.2
      (by rw [Prod.mk.eta]; exact hx₁) hy₂
  have hpresent : ∀ d text, (d, text) ∈ input_files →
      d ∉ docs_to_remove pick (minhash_clusters normalize mmh3hash enum eset input_files
        num_hashes num_bands ngrams_n τ) →
      minhash_deduplication name normalize mmh3hash enum eset pick input_files num_hashes
        num_bands ngrams_n τ (name d) = some text := by
    intro d text hmem hnr
    have hdict : dictOf input_files "" d = text :=
      dictOf_mem input_files "" hkeys d text hmem
    apply outputFS_nodup_mem _ hwnames
    rw [hwriteseq]
    apply List.mem_map.mpr
    refine ⟨(d, text), ?_, ?_⟩
    · rw [List.mem_filter]
      exact ⟨hmem, by simpa using hnr⟩
    · exact Prod.ext rfl hdict
  have habsent : ∀ d text, (d, text) ∈ input_files →
      d ∈ docs_to_remove pick (minhash_clusters normalize mmh3hash enum eset input_files
        num_hashes num_bands ngrams_n τ) →
      minhash_deduplication name normalize mmh3hash enum eset pick input_files num_hashes
        num_bands ngrams_n τ (name d) = none := by
    intro d text hmem hr
    apply outputFS_none
    intro p hp
    rw [hwriteseq] at hp
    obtain ⟨pt, hpt, rfl⟩ := List.mem_map.mp hp
    have hpt₁ := List.mem_of_mem_filter hpt
    have hptr : pt.1 ∉ docs_to_remove pick (minhash_clusters normalize mmh3hash enum eset
        input_files num_hashes num_bands ngrams_n τ) := by
      have h := (List.mem_filter.mp hpt).2
      simpa using h
    intro he
    have hpd : pt.1 = d := hname pt hpt₁ (d, text) hmem he
    rw [hpd] at hptr
    exact hptr hr
  have hpass : ∀ d, (∀ c ∈ minhash_clusters normalize mmh3hash enum eset input_files
      num_hashes num_bands ngrams_n τ, d ∉ c) →
      d ∉ docs_to_remove pick (minhash_clusters normalize mmh3hash enum eset input_files
        num_hashes num_bands ngrams_n τ) := by
    intro d hall
    rw [mem_docs_to_remove]
    rintro ⟨c, hc, hdc, -⟩
    exact hall c hc hdc
  exact ⟨hmembers, hcount, hpresent, habsent, hpass⟩

theorem clustersLoop_nil_dups (eset : Finset α → List α) (heset0 : eset ∅ = []) :
    ∀ (keys : List α) (processed : Finset α),
      clustersLoop eset ([] : List (α × Finset α)) keys processed = [] := by
  intro keys
  induction keys with
  | nil =>
    intro processed
    rw [clustersLoop]
  | cons doc rest ih =>
    intro processed
    rw [clustersLoop]
    by_cases h : doc ∈ processed
    · rw [if_pos h]
      exact ih processed
    · rw [if_neg h]
      have h2 : eset (dupsGet ([] : List (α × Finset α)) doc) = [] := by
        rw [show dupsGet ([] : List (α × Finset α)) doc = ∅ from rfl, heset0]
      have h1 : bfsLoop eset ([] : List (α × Finset α))
          (eset (dupsGet ([] : List (α × Finset α)) doc)) [doc]
          (insert doc processed) = ([doc], insert doc processed) := by
        rw [h2, bfsLoop]
      simp only [h1]
      rw [if_neg (by simp)]
      exact ih _

theorem find_duplicate_clusters_nil (eset : Finset α → List α) (heset0 : eset ∅ = [])
    (keys : List α) (ng : α → Finset String) (τ : ℚ) :
    find_duplicate_clusters eset ([] : List (κ × List α)) keys ng τ = [] := by
  unfold find_duplicate_clusters
  rw [show computeDuplicates ng τ ([] : List (κ × List α)) = [] from rfl]
  exact clustersLoop_nil_dups eset heset0 keys ∅

theorem minhash_candidates_singleton (normalize : String → String)
    (mmh3hash : String → Int → Int) (enum : Finset String → List String)
    (pt : α × String) (num_hashes num_bands ngrams_n : ℕ) :
    minhash_candidates normalize mmh3hash enum [pt] num_hashes num_bands ngrams_n = [] := by
  have hknd : ((minhash_signatures normalize mmh3hash enum [pt] num_hashes
      ngrams_n).map Prod.fst).Nodup := by
    rw [minhash_signatures_keys]
    simp
  have hlen := minhash_signatures_length normalize mmh3hash enum [pt] num_hashes ngrams_n
  have honly : ∀ d sig, (d, sig) ∈ minhash_signatures normalize mmh3hash enum [pt]
      num_hashes ngrams_n → d = pt.1 := by
    intro d sig hmem
    unfold minhash_signatures at hmem
    obtain ⟨e, he, hde⟩ := List.mem_map.mp hmem
    unfold minhash_doc_entries at he
    obtain ⟨pt₁, hpt₁, rfl⟩ := List.mem_map.mp he
    rw [List.mem_singleton] at hpt₁
    subst hpt₁
    exact (congrArg Prod.fst hde).symm
  unfold minhash_candidates
  rw [List.filter_eq_nil_iff.mpr]
  intro p hp
  simp only [decide_eq_true_eq, not_lt]
  have heq := bucketsGet_of_mem _ (apply_lsh_keys_nodup _ num_bands) p hp
  have hnodup := bucketsGet_apply_lsh_nodup
    (minhash_signatures normalize mmh3hash enum [pt] num_hashes ngrams_n) num_bands
    num_hashes hknd hlen p.1
  have hall : ∀ d ∈ bucketsGet (apply_lsh (minhash_signatures normalize mmh3hash enum [pt]
      num_hashes ngrams_n) num_bands) p.1, d = pt.1 := by
    intro d hd
    rw [mem_bucketsGet_apply_lsh _ num_bands num_hashes hlen] at hd
    obtain ⟨sig, hsig, -, -⟩ := hd
    exact honly d sig hsig
  rw [← heq]
  by_contra hgt
  push_neg at hgt
  obtain ⟨b, hb, hbne⟩ := exists_ne_mem _ hnodup hgt pt.1
  exact hbne (hall b hb)

theorem minhash_dedup_survivor_invariant_witness :
    minhash_deduplication (fun n : ℕ => toString n) id (fun _ _ => (0 : Int))
      (fun s : Finset String =>
        if s = ∅ then [] else if s = {"hello"} then ["hello"] else s.sort (· ≤ ·))
      (fun s : Finset ℕ => if s = ∅ then [] else s.sort (· ≤ ·))
      (fun l : List ℕ => l.headD 0) [(0, "hello")] 2 1 1 (1 / 2) (toString 0) =
      some "hello" := by
  have heset : ∀ s : Finset ℕ,
      ((if s = ∅ then [] else s.sort (· ≤ ·)).toFinset) = s := by
    intro s
    split_ifs with h1
    · rw [h1]
      rfl
    · exact Finset.sort_toFinset _ s
  have hcand := minhash_candidates_singleton id (fun _ _ => (0 : Int))
    (fun s : Finset String =>
      if s = ∅ then [] else if s = {"hello"} then ["hello"] else s.sort (· ≤ ·))
    ((0 : ℕ), "hello") 2 1 1
  have hkeysl : (minhash_doc_entries id (fun _ _ => (0 : Int))
      (fun s : Finset String =>
        if s = ∅ then [] else if s = {"hello"} then ["hello"] else s.sort (· ≤ ·))
      [((0 : ℕ), "hello")] 2 1).map Prod.fst = [0] := by
    rw [minhash_doc_entries_keys]
    rfl
  have hcs : minhash_clusters id (fun _ _ => (0 : Int))
      (fun s : Finset String =>
        if s = ∅ then [] else if s = {"hello"} then ["hello"] else s.sort (· ≤ ·))
      (fun s : Finset ℕ => if s = ∅ then [] else s.sort (· ≤ ·))
      [((0 : ℕ), "hello")] 2 1 1 (1 / 2) = [] := by
    rw [minhash_clusters_eq, hcand, hkeysl]
    apply find_duplicate_clusters_nil
    rw [if_pos rfl]
  refine (minhash_dedup_survivor_invariant (fun n : ℕ => toString n) id
      (fun _ _ => (0 : Int))
      (fun s : Finset String =>
        if s = ∅ then [] else if s = {"hello"} then ["hello"] else s.sort (· ≤ ·))
      (fun s : Finset ℕ => if s = ∅ then [] else s.sort (· ≤ ·))
      (fun l : List ℕ => l.headD 0) [(0, "hello")] 2 1 1 (1 / 2) heset ?_ ?_ ?_).2.2.1
      0 "hello" (by simp) ?_
  · intro l hl
    match l with
    | [] => exact absurd rfl hl
    | a :: t => exact List.mem_cons_self ..
  · simp
  · intro p hp q hq _
    rw [List.mem_singleton] at hp hq
    rw [hp, hq]
  · rw [hcs]
    rw [mem_docs_to_remove]
    rintro ⟨c, hc, -, -⟩
    cases hc

/-- C9: for fixed inputs, seed, and configuration, two runs produce identical
per-document signature tables even though Python's n-gram *set* iteration
order (`enum`) is unspecified and may differ between runs; and the full fuzzy
pipeline produces the same cluster partition across two runs even when both
unspecified set iteration orders (`enum`, `eset`) differ — the random
survivor choice does not enter clustering at all. -/
theorem minhash_pipeline_deterministic (normalize : String → String)
    (mmh3hash : String → Int → Int) (enum₁ enum₂ : Finset String → List String)
    (eset₁ eset₂ : Finset α → List α) (input_files : List (α × String))
    (num_hashes num_bands ngrams_n : ℕ) (τ : ℚ)
    (henum₁ : ∀ s, (enum₁ s).toFinset = s) (henum₂ : ∀ s, (enum₂ s).toFinset = s)
    (heset₁ : ∀ s, (eset₁ s).toFinset = s) (heset₂ : ∀ s, (eset₂ s).toFinset = s)
    (hkeys : (input_files.map Prod.fst).Nodup) :
    minhash_doc_entries normalize mmh3hash enum₁ input_files num_hashes ngrams_n =
      minhash_doc_entries normalize mmh3hash enum₂ input_files num_hashes ngrams_n ∧
    ((minhash_clusters normalize mmh3hash enum₁ eset₁ input_files num_hashes num_bands
        ngrams_n τ).map List.toFinset).toFinset =
      ((minhash_clusters normalize mmh3hash enum₂ eset₂ input_files num_hashes num_bands
        ngrams_n τ).map List.toFinset).toFinset := by
  have hentries : minhash_doc_entries normalize mmh3hash enum₁ input_files num_hashes
      ngrams_n = minhash_doc_entries normalize mmh3hash enum₂ input_files num_hashes
      ngrams_n := by
    unfold minhash_doc_entries
    apply List.map_congr_left
    intro pt _
    have hsig := compute_minhash_signature_set_dep mmh3hash
      (enum₁ (create_ngrams (normalize pt.2) ngrams_n))
      (enum₂ (create_ngrams (normalize pt.2) ngrams_n)) num_hashes 42
      (by rw [henum₁, henum₂])
    show (pt.1, pt.2, create_ngrams (normalize pt.2) ngrams_n,
        compute_minhash_signature mmh3hash
          (enum₁ (create_ngrams (normalize pt.2) ngrams_n)) num_hashes 42) =
      (pt.1, pt.2, create_ngrams (normalize pt.2) ngrams_n,
        compute_minhash_signature mmh3hash
          (enum₂ (create_ngrams (normalize pt.2) ngrams_n)) num_hashes 42)
    rw [hsig]
  refine ⟨hentries, ?_⟩
  rw [minhash_clusters_eq, minhash_clusters_eq]
  have hcand : minhash_candidates normalize mmh3hash enum₁ input_files num_hashes
      num_bands ngrams_n = minhash_candidates normalize mmh3hash enum₂ input_files
      num_hashes num_bands ngrams_n := by
    unfold minhash_candidates minhash_signatures
    rw [hentries]
  rw [hcand, hentries]
  obtain ⟨hndC, hsubC⟩ := minhash_candidates_facts normalize mmh3hash enum₂ input_files
    num_hashes num_bands ngrams_n hkeys
  have hkeq := minhash_doc_entries_keys normalize mmh3hash enum₂ input_files num_hashes
    ngrams_n
  have hsub : ∀ q ∈ minhash_candidates normalize mmh3hash enum₂ input_files num_hashes
      num_bands ngrams_n, ∀ d ∈ q.2,
      d ∈ (minhash_doc_entries normalize mmh3hash enum₂ input_files num_hashes
        ngrams_n).map Prod.fst := by
    intro q hq d hd
    rw [hkeq]
    exact hsubC q hq d hd
  apply Finset.Subset.antisymm
  · intro S hS
    exact fdc_partition_subset eset₁ eset₂ _ _ _ _ τ heset₁ heset₂ hndC hsub
      (fun a => Iff.rfl) S hS
  · intro S hS
    exact fdc_partition_subset eset₂ eset₁ _ _ _ _ τ heset₂ heset₁ hndC hsub
      (fun a => Iff.rfl) S hS

theorem minhash_pipeline_deterministic_witness :
    ((minhash_clusters id (fun _ _ => (0 : Int)) (fun s : Finset String => s.sort (· ≤ ·))
        (fun s : Finset ℕ => s.sort (· ≤ ·)) [(0, "a")] 2 1 1 (1 / 2)).map
        List.toFinset).toFinset =
      ((minhash_clusters id (fun _ _ => (0 : Int))
        (fun s : Finset String => (s.sort (· ≤ ·)).reverse)
        (fun s : Finset ℕ => (s.sort (· ≤ ·)).reverse) [(0, "a")] 2 1 1 (1 / 2)).map
        List.toFinset).toFinset :=
  (minhash_pipeline_deterministic id (fun _ _ => (0 : Int))
    (fun s : Finset String => s.sort (· ≤ ·))
    (fun s : Finset String => (s.sort (· ≤ ·)).reverse)
    (fun s : Finset ℕ => s.sort (· ≤ ·))
    (fun s : Finset ℕ => (s.sort (· ≤ ·)).reverse) [(0, "a")] 2 1 1 (1 / 2)
    (fun s => Finset.sort_toFinset _ s)
    (fun s => by rw [List.toFinset_reverse]; exact Finset.sort_toFinset _ s)
    (fun s => Finset.sort_toFinset _ s)
    (fun s => by rw [List.toFinset_reverse]; exact Finset.sort_toFinset _ s)
    (by simp)).2

/-- C10: both rewriters name each output file by the input path's base
filename only.  The two distinct surviving inputs `a/f` and `b/f` (no
confirmed duplicates — their texts share no n-gram) map to the same output
name `f`: the fuzzy rewriter performs two writes to `f`, the later one wins,
the output corpus ends with one file for two survivors, and the earlier text
`"one"` appears nowhere in the output; the exact-line rewriter overwrites the
same way. -/
theorem basename_collision_overwrites :
    minhash_dedup_writes baseName id (fun _ _ => (0 : Int))
      (fun s : Finset String =>
        if s = {"one"} then ["one"] else if s = {"two"} then ["two"] else [])
      (fun _ : Finset (List String) => ([] : List (List String)))
      (fun l : List (List String) => l.headD [])
      [(["a", "f"], "one"), (["b", "f"], "two")] 2 2 1 (1 / 2) =
      [("f", "one"), ("f", "two")] ∧
    minhash_deduplication baseName id (fun _ _ => (0 : Int))
      (fun s : Finset String =>
        if s = {"one"} then ["one"] else if s = {"two"} then ["two"] else [])
      (fun _ : Finset (List String) => ([] : List (List String)))
      (fun l : List (List String) => l.headD [])
      [(["a", "f"], "one"), (["b", "f"], "two")] 2 2 1 (1 / 2) "f" = some "two" ∧
    (∀ nm, minhash_deduplication baseName id (fun _ _ => (0 : Int))
      (fun s : Finset String =>
        if s = {"one"} then ["one"] else if s = {"two"} then ["two"] else [])
      (fun _ : Finset (List String) => ([] : List (List String)))
      (fun l : List (List String) => l.headD [])
      [(["a", "f"], "one"), (["b", "f"], "two")] 2 2 1 (1 / 2) nm ≠ some "one") ∧
    exact_line_dedup_writes id baseName [(["a", "f"], ["p"]), (["b", "f"], ["q"])] =
      [("f", ["p"]), ("f", ["q"])] ∧
    outputFS [("f", ["p"]), ("f", ["q"])] "f" = some ["q"] := by
  have hjac : ¬((1 : ℚ) / 2 ≤ compute_jaccard_similarity ({"one"} : Finset String)
      {"two"}) := by
    unfold compute_jaccard_similarity
    rw [if_neg (by simp)]
    have h1 : (({"one"} : Finset String) ∩ {"two"}).card = 0 := by decide
    have h2 : (({"one"} : Finset String) ∪ {"two"}).card = 2 := by decide
    rw [h1, h2]
    norm_num
  have hcand : minhash_candidates id (fun _ _ => (0 : Int))
      (fun s : Finset String =>
        if s = {"one"} then ["one"] else if s = {"two"} then ["two"] else [])
      [(["a", "f"], "one"), (["b", "f"], "two")] 2 2 1 =
      [((0, [((0 : Int) : WithTop Int)]), [["a", "f"], ["b", "f"]]),
       ((1, [((0 : Int) : WithTop Int)]), [["a", "f"], ["b", "f"]])] := by decide
  have hng1 : dictOf ((minhash_doc_entries id (fun _ _ => (0 : Int))
      (fun s : Finset String =>
        if s = {"one"} then ["one"] else if s = {"two"} then ["two"] else [])
      [(["a", "f"], "one"), (["b", "f"], "two")] 2 1).map (fun e => (e.1, e.2.2.1))) ∅
      ["a", "f"] = {"one"} := by decide
  have hng2 : dictOf ((minhash_doc_entries id (fun _ _ => (0 : Int))
      (fun s : Finset String =>
        if s = {"one"} then ["one"] else if s = {"two"} then ["two"] else [])
      [(["a", "f"], "one"), (["b", "f"], "two")] 2 1).map (fun e => (e.1, e.2.2.1))) ∅
      ["b", "f"] = {"two"} := by decide
  have hstep : dupStep (dictOf ((minhash_doc_entries id (fun _ _ => (0 : Int))
      (fun s : Finset String =>
        if s = {"one"} then ["one"] else if s = {"two"} then ["two"] else [])
      [(["a", "f"], "one"), (["b", "f"], "two")] 2 1).map (fun e => (e.1, e.2.2.1))) ∅)
      (1 / 2) ([] : List (List String × Finset (List String)))
      (["a", "f"], ["b", "f"]) = [] := by
    unfold dupStep
    rw [if_neg (by simp [dupsGet])]
    rw [if_neg (by rw [show (((["a", "f"], ["b", "f"]) :
        List String × List String)).1 = ["a", "f"] from rfl]; rw [hng1, hng2]; exact hjac)]
  have hfold : List.foldl (dupStep (dictOf ((minhash_doc_entries id
      (fun _ _ => (0 : Int))
      (fun s : Finset String =>
        if s = {"one"} then ["one"] else if s = {"two"} then ["two"] else [])
      [(["a", "f"], "one"), (["b", "f"], "two")] 2 1).map (fun e => (e.1, e.2.2.1))) ∅)
      (1 / 2)) [] [(["a", "f"], ["b", "f"])] = [] := by
    rw [List.foldl_cons, List.foldl_nil, hstep]
  have hdups : computeDuplicates (dictOf ((minhash_doc_entries id (fun _ _ => (0 : Int))
      (fun s : Finset String =>
        if s = {"one"} then ["one"] else if s = {"two"} then ["two"] else [])
      [(["a", "f"], "one"), (["b", "f"], "two")] 2 1).map (fun e => (e.1, e.2.2.1))) ∅)
      (1 / 2)
      [((0, [((0 : Int) : WithTop Int)]), [["a", "f"], ["b", "f"]]),
       ((1, [((0 : Int) : WithTop Int)]), [["a", "f"], ["b", "f"]])] = [] := by
    unfold computeDuplicates
    rw [List.foldl_cons, if_neg (by decide),
      show pairsOf [["a", "f"], ["b", "f"]] = [(["a", "f"], ["b", "f"])] from rfl,
      hfold,
      List.foldl_cons, if_neg (by decide),
      show pairsOf [["a", "f"], ["b", "f"]] = [(["a", "f"], ["b", "f"])] from rfl,
      hfold, List.foldl_nil]
  have hcs : minhash_clusters id (fun _ _ => (0 : Int))
      (fun s : Finset String =>
        if s = {"one"} then ["one"] else if s = {"two"} then ["two"] else [])
      (fun _ : Finset (List String) => ([] : List (List String)))
      [(["a", "f"], "one"), (["b", "f"], "two")] 2 2 1 (1 / 2) = [] := by
    rw [minhash_clusters_eq, hcand]
    unfold find_duplicate_clusters
    rw [hdups]
    exact clustersLoop_nil_dups _ rfl _ ∅
  have hwrites : minhash_dedup_writes baseName id (fun _ _ => (0 : Int))
      (fun s : Finset String =>
        if s = {"one"} then ["one"] else if s = {"two"} then ["two"] else [])
      (fun _ : Finset (List String) => ([] : List (List String)))
      (fun l : List (List String) => l.headD [])
      [(["a", "f"], "one"), (["b", "f"], "two")] 2 2 1 (1 / 2) =
      [("f", "one"), ("f", "two")] := by
    rw [minhash_dedup_writes_eq, hcs]
    decide
  refine ⟨hwrites, ?_, ?_, by decide, by decide⟩
  · show outputFS _ "f" = some "two"
    rw [hwrites]
    decide
  · intro nm
    show outputFS _ nm ≠ some "one"
    rw [hwrites]
    by_cases h : nm = "f" <;> simp [outputFS, h]

end DedupTheorems
